import Mathlib

/-!
Verification development for the envelope-env environment compiler
(src/main.ts of the envelope-env repository).

The embedding models the filesystem abstractly: a `FileSys` provides the
oracles the code consults (`fs.existsSync`, `fs.statSync(...).isDirectory()`,
`fs.readFileSync`, `fs.readdirSync(..., { withFileTypes: true })`, and
`path.dirname`).  Paths are plain strings; `path.join` is modelled as
concatenation with a slash separator, which agrees with node's `path.join`
on normalized directory arguments without trailing slashes.

Strings are processed through their character lists so that the JavaScript
string operations (`split('\n')`, `trim()`, regular-expression tests) can be
modelled precisely.  In particular the JavaScript regex `.` wildcard does
not match line terminators (`\n`, `\r`, U+2028, U+2029) and `\s` matches
all JavaScript whitespace; both facts are reflected below.
-/

/-- JavaScript whitespace characters: the character class matched by `\s`
and stripped by `String.prototype.trim`. -/
def jsWsChars : List Char :=
  [' ', '\t', '\n', '\x0b', '\x0c', '\r',
   '\u00A0', '\u1680',
   '\u2000', '\u2001', '\u2002', '\u2003', '\u2004', '\u2005', '\u2006',
   '\u2007', '\u2008', '\u2009', '\u200A',
   '\u2028', '\u2029', '\u202F', '\u205F', '\u3000', '\uFEFF']

/-- Whether a character is JavaScript whitespace. -/
def isJsWs (c : Char) : Bool := decide (c ∈ jsWsChars)

/-- JavaScript line terminators: the characters NOT matched by the regex
wildcard. -/
def lineTermChars : List Char := ['\n', '\r', '\u2028', '\u2029']

/-- Whether a character is a JavaScript line terminator. -/
def isLineTerm (c : Char) : Bool := decide (c ∈ lineTermChars)

/-- First character of an identifier: the class in a regex is A-Za-z_. -/
def isIdentStart (c : Char) : Bool :=
  ('A' ≤ c && c ≤ 'Z') || ('a' ≤ c && c ≤ 'z') || c == '_'

/-- Later characters of an identifier: the class in a regex is A-Za-z0-9_. -/
def isIdentChar (c : Char) : Bool :=
  isIdentStart c || ('0' ≤ c && c ≤ '9')

/-- Model of a JavaScript split on the newline character: cuts a character
list at every newline; the empty list yields a single empty line, exactly
like the empty string in JavaScript. -/
def splitNlChars : List Char → List (List Char)
  | [] => [[]]
  | c :: cs =>
    if c = '\n' then [] :: splitNlChars cs
    else
      match splitNlChars cs with
      | [] => [[c]]
      | h :: t => (c :: h) :: t

/-- Drop trailing JavaScript whitespace from a character list. -/
def rdropWs (l : List Char) : List Char := (l.reverse.dropWhile isJsWs).reverse

/-- Model of `String.prototype.trim`: drop leading and trailing JavaScript
whitespace. -/
def trimChars (l : List Char) : List Char := rdropWs (l.dropWhile isJsWs)

/-- Decision procedure for one (already trimmed) line of the validator's
regular expression
`^(\s*#.*|\s*$|[A-Za-z_][A-Za-z0-9_]*\s*=\s*.*)$`.
On a trimmed line the three alternatives reduce to: an empty line, a line
starting with a hash whose remainder is free of line terminators (the
regex wildcard cannot cross them), or an identifier, optional whitespace,
an equals sign and a tail which after optional whitespace is free of line
terminators. -/
def validLineChars (t : List Char) : Bool :=
  match t with
  | [] => true
  | c :: rest =>
    if c = '#' then rest.all (fun x => !isLineTerm x)
    else
      isIdentStart c &&
        (match (rest.dropWhile isIdentChar).dropWhile isJsWs with
         | '=' :: tail => (tail.dropWhile isJsWs).all (fun x => !isLineTerm x)
         | _ => false)

/-- Error taxonomy of the tool, carrying the data rendered into each
thrown message. -/
inductive EnvError where
  | configNotFound : EnvError
  | incompatibleModes (rootEnvDir : String) : EnvError
  | environmentNotFound (env envSubDir flatEnvFile : String) : EnvError
  | invalidFormat (lineNo : Nat) (content : String) : EnvError
  | missingEnvFile : EnvError
  | missingEnvelopeEnv : EnvError
  deriving DecidableEq, Repr

/-- The message text each error is thrown with in the source. -/
def errMessage : EnvError → String
  | .configNotFound => "Could not find env directory"
  | .incompatibleModes d =>
      "Incompatible environment modes detected in '" ++ d ++
      "': found both subdirectories (directory mode) and .env.* files (flat mode). " ++
      "Use one layout or the other, not both."
  | .environmentNotFound env s f =>
      "Could not find environment '" ++ env ++ "': no directory '" ++ s ++
      "' or file '" ++ f ++ "'"
  | .invalidFormat n c => "invalid .env format at line " ++ toString n ++ ": " ++ c
  | .missingEnvFile => "Oopsie"
  | .missingEnvelopeEnv => "Could not parse ENVELOPE_ENV"

/-- Scan the lines of the merged text, returning the 1-based index and the
trimmed content of the first line rejected by the validator's regex. -/
def firstBad : Nat → List (List Char) → Option (Nat × List Char)
  | _, [] => none
  | i, l :: ls =>
    let t := trimChars l
    if validLineChars t then firstBad (i + 1) ls else some (i, t)

/-- Model of `validateEnvString`: split on newlines, trim each line, test
it against the line regex, and throw `invalid .env format at line i+1`
with the trimmed content on the first failure. -/
def validateEnvString (s : String) : Except EnvError Unit :=
  match firstBad 1 (splitNlChars s.toList) with
  | none => .ok ()
  | some (i, t) => .error (.invalidFormat i (String.mk t))

/-- Parse one line as an assignment per the spec grammar: optional leading
whitespace, an identifier, optional whitespace, an equals sign, and the
value (with the whitespace after the equals sign stripped). -/
def parseAssign (l : List Char) : Option (String × String) :=
  match l.dropWhile isJsWs with
  | [] => none
  | c :: rest =>
    if isIdentStart c then
      match (rest.dropWhile isIdentChar).dropWhile isJsWs with
      | '=' :: tail =>
          some (String.mk (c :: rest.takeWhile isIdentChar),
                String.mk (tail.dropWhile isJsWs))
      | _ => none
    else none

/-- JavaScript object assignment on an insertion-ordered association list:
an existing key keeps its position and receives the new value, a fresh key
is appended at the end. -/
def setKey : List (String × String) → String → String → List (String × String)
  | [], k, v => [(k, v)]
  | (k', v') :: rest, k, v =>
    if k' = k then (k', v) :: rest else (k', v') :: setKey rest k v

/-- Property lookup on the ordered mapping, as JavaScript property access
on the parsed object. -/
def envLookup (k : String) : List (String × String) → Option String
  | [] => none
  | (k2, v) :: rest => if k2 = k then some v else envLookup k rest

/-- Fold the lines of a text into an ordered mapping, later assignments
overwriting earlier ones that share the same key. -/
def processLines : List (String × String) → List (List Char) → List (String × String)
  | m, [] => m
  | m, l :: ls =>
    processLines
      (match parseAssign l with
       | some kv => setKey m kv.1 kv.2
       | none => m) ls

/-- Modelled from the spec: the external dotenv parser, which is out of
scope of the repository and specified only as a library primitive that
turns text into an ordered mapping from string to string where the last
assignment to a key wins.  Assignment lines follow the spec grammar of
section 4.4; all other lines contribute nothing. -/
def parseEnvString (s : String) : List (String × String) :=
  processLines [] (splitNlChars s.toList)

/-- Model of JavaScript `Array.prototype.join('\n')`. -/
def joinLines : List String → String
  | [] => ""
  | [l] => l
  | l :: ls => l ++ "\n" ++ joinLines ls

/-- Serialization of a compiled mapping, as in `compileDotEnv`:
`key=value` lines joined by newlines in mapping order. -/
def serializeEnv (m : List (String × String)) : String :=
  joinLines (m.map (fun kv => kv.1 ++ "=" ++ kv.2))

/-- A directory entry as returned by `readdirSync` with file types. -/
structure Dirent where
  name : String
  isDirectory : Bool
  isFile : Bool
  deriving DecidableEq, Repr

/-- Abstract read-only filesystem: the oracles the code consults. -/
structure FileSys where
  fsExists : String → Bool
  isDir : String → Bool
  readFile : String → String
  readdir : String → List Dirent
  parent : String → String

/-- Overwriting a file: the model of `fs.writeFileSync`. -/
def FileSys.writeFile (fs : FileSys) (p c : String) : FileSys :=
  { fs with
    fsExists := fun q => q == p || fs.fsExists q
    readFile := fun q => if q = p then c else fs.readFile q }

/-- Model of `path.join` on normalized directory arguments. -/
def pathJoin (a b : String) : String := a ++ "/" ++ b

/-- The test of the flat-marker regex `^\.env\..` on an entry name: the
name starts with the five characters `.env.` followed by at least one
character that the regex wildcard can match, hence one that is not a
line terminator. -/
def isFlatName (n : String) : Bool :=
  match n.toList with
  | '.' :: 'e' :: 'n' :: 'v' :: '.' :: c :: _ => !isLineTerm c
  | _ => false

/-- The environment name obtained from a flat file name by `name.slice(5)`. -/
def envSuffix (n : String) : String := String.mk (n.toList.drop 5)

/-- Whether the configuration directory contains a directory-mode marker:
a subdirectory other than `node_modules`. -/
def hasSubdirs (fs : FileSys) (rootEnvDir : String) : Bool :=
  (fs.readdir rootEnvDir).any (fun e => e.isDirectory && e.name != "node_modules")

/-- Whether the configuration directory contains a flat-mode marker: a
regular file matching `^\.env\..`. -/
def hasFlatFiles (fs : FileSys) (rootEnvDir : String) : Bool :=
  (fs.readdir rootEnvDir).any (fun e => e.isFile && isFlatName e.name)

/-- Model of `assertSingleEnvMode`: fail with the incompatible-modes error
when markers of both layouts are present. -/
def assertSingleEnvMode (fs : FileSys) (rootEnvDir : String) : Except EnvError Unit :=
  if hasSubdirs fs rootEnvDir && hasFlatFiles fs rootEnvDir then
    .error (.incompatibleModes rootEnvDir)
  else .ok ()

/-- Model of `getRootDir`: walk upward from the working directory until a
directory named `env` is found, failing at the filesystem root (where a
directory is its own parent).  The loop is given explicit fuel; `none`
means the fuel ran out before the walk terminated. -/
def getRootDir (fs : FileSys) : Nat → String → Option (Except EnvError String)
  | 0, _ => none
  | fuel + 1, currentDir =>
    let configDir := pathJoin currentDir "env"
    if fs.fsExists configDir && fs.isDir configDir then some (.ok currentDir)
    else
      let parentDir := fs.parent currentDir
      if parentDir = currentDir then some (.error .configNotFound)
      else getRootDir fs fuel parentDir

/-- The directory-mode test made by `getCompiledEnv` for a requested name:
the subdirectory of that name exists and is a directory. -/
def isDirectoryMode (fs : FileSys) (rootEnvDir env : String) : Bool :=
  fs.fsExists (pathJoin rootEnvDir env) && fs.isDir (pathJoin rootEnvDir env)

/-- The path of the environment-specific file consulted by the compiler:
`<subdir>/.env` in directory mode, `.env.<name>` in flat mode. -/
def specificEnvPath (fs : FileSys) (rootEnvDir env : String) : String :=
  if isDirectoryMode fs rootEnvDir env then
    pathJoin (pathJoin rootEnvDir env) ".env"
  else pathJoin rootEnvDir (".env." ++ env)

/-- The merged text built by `getCompiledEnv`: the two synthetic
assignments, then for each of the common file and the environment-specific
file that exists, a newline followed by its contents. -/
def mergedEnvText (fs : FileSys) (rootEnvDir env : String) (dirMode : Bool) : String :=
  let envDir := if dirMode then pathJoin rootEnvDir env else rootEnvDir
  let base := "ENVELOPE_ENV=" ++ env ++ "\n" ++ "ENVELOPE_DIR=" ++ envDir ++ "\n"
  let commonPath := pathJoin rootEnvDir ".env"
  let specificPath :=
    if dirMode then pathJoin (pathJoin rootEnvDir env) ".env"
    else pathJoin rootEnvDir (".env." ++ env)
  let withCommon :=
    if fs.fsExists commonPath then base ++ "\n" ++ fs.readFile commonPath else base
  if fs.fsExists specificPath then withCommon ++ "\n" ++ fs.readFile specificPath
  else withCommon

/-- Model of `getCompiledEnv`: enforce a single layout, resolve the
requested environment (preferring directory mode), build the merged text,
validate it, and parse it into the compiled mapping. -/
def getCompiledEnv (fs : FileSys) (rootEnvDir env : String) :
    Except EnvError (List (String × String)) :=
  match assertSingleEnvMode fs rootEnvDir with
  | .error e => .error e
  | .ok () =>
    if !isDirectoryMode fs rootEnvDir env &&
        !(!isDirectoryMode fs rootEnvDir env &&
          fs.fsExists (pathJoin rootEnvDir (".env." ++ env))) then
      .error (.environmentNotFound env (pathJoin rootEnvDir env)
        (pathJoin rootEnvDir (".env." ++ env)))
    else
      match validateEnvString
          (mergedEnvText fs rootEnvDir env (isDirectoryMode fs rootEnvDir env)) with
      | .error e => .error e
      | .ok () =>
        .ok (parseEnvString
          (mergedEnvText fs rootEnvDir env (isDirectoryMode fs rootEnvDir env)))

/-- Model of `compileDotEnv`: the compiled mapping rendered to text. -/
def compileDotEnv (fs : FileSys) (rootEnvDir env : String) : Except EnvError String :=
  (getCompiledEnv fs rootEnvDir env).map serializeEnv

/-- Model of the `list` subcommand body: enforce a single layout, then
return the names of the non-reserved subdirectories followed by the
suffixes of the flat-marker files, in listing order. -/
def list (fs : FileSys) (rootEnvDir : String) : Except EnvError (List String) :=
  match assertSingleEnvMode fs rootEnvDir with
  | .error e => .error e
  | .ok () =>
    .ok (((fs.readdir rootEnvDir).filter
            (fun e => e.isDirectory && e.name != "node_modules")).map
           (fun e => e.name)
         ++ ((fs.readdir rootEnvDir).filter
            (fun e => e.isFile && isFlatName e.name)).map
           (fun e => envSuffix e.name))

/-- The `use` subcommand body after the root has been located: compile,
and only on success write the serialized text to the output file; on any
error the filesystem is returned unchanged. -/
def useFrom (fs : FileSys) (rootDir env : String) : FileSys × Except EnvError Unit :=
  match compileDotEnv fs (pathJoin rootDir "env") env with
  | .error e => (fs, .error e)
  | .ok text => (fs.writeFile (pathJoin rootDir ".env") text, .ok ())

/-- Model of the `use` subcommand: locate the root (with fuel), then
compile and write. -/
def use (fs : FileSys) (fuel : Nat) (cwd env : String) :
    Option (FileSys × Except EnvError Unit) :=
  match getRootDir fs fuel cwd with
  | none => none
  | some (.error e) => some (fs, .error e)
  | some (.ok rootDir) => some (useFrom fs rootDir env)

/-- The `current` subcommand body after the root has been located: require
the output file, validate and parse it, and return `ENVELOPE_ENV` unless
that key is absent or its parsed value is the empty string (JavaScript
truthiness of `parsed.ENVELOPE_ENV`). -/
def currentFrom (fs : FileSys) (rootDir : String) : Except EnvError String :=
  if fs.fsExists (pathJoin rootDir ".env") then
    match validateEnvString (fs.readFile (pathJoin rootDir ".env")) with
    | .error e => .error e
    | .ok () =>
      match envLookup "ENVELOPE_ENV"
          (parseEnvString (fs.readFile (pathJoin rootDir ".env"))) with
      | none => .error .missingEnvelopeEnv
      | some v => if v = "" then .error .missingEnvelopeEnv else .ok v
  else .error .missingEnvFile

/-- Model of the `current` subcommand: locate the root, then read back the
output file. -/
def current (fs : FileSys) (fuel : Nat) (cwd : String) :
    Option (Except EnvError String) :=
  match getRootDir fs fuel cwd with
  | none => none
  | some (.error e) => some (.error e)
  | some (.ok rootDir) => some (currentFrom fs rootDir)

/-- The value a key resolves to within a list of lines: the value of the
last assignment line for that key, if any. -/
def lastVal (k : String) : List (List Char) → Option String
  | [] => none
  | l :: ls =>
    match lastVal k ls with
    | some v => some v
    | none =>
      match parseAssign l with
      | some kv => if kv.1 = k then some kv.2 else none
      | none => none

/-- Every character of the list is JavaScript whitespace. -/
def AllWsL (l : List Char) : Prop := ∀ c ∈ l, isJsWs c = true

/-- No character of the list is a line terminator. -/
def NoTermL (l : List Char) : Prop := ∀ c ∈ l, isLineTerm c = false

/-- The list is a well-formed identifier: a start character followed by
identifier characters. -/
def IdentL (l : List Char) : Prop :=
  ∃ c cs, l = c :: cs ∧ isIdentStart c = true ∧ ∀ x ∈ cs, isIdentChar x = true

/-- The line grammar exactly as the specification words it: a line is
valid when it is entirely whitespace, or a comment whose first
non-whitespace character is a hash, or an assignment made of an
identifier with optional surrounding whitespace, an equals sign, and
arbitrary trailing content. -/
def SpecValidLine (l : List Char) : Prop :=
  AllWsL l
  ∨ (∃ w rest, l = w ++ '#' :: rest ∧ AllWsL w)
  ∨ (∃ w1 idn w2 tail, l = w1 ++ idn ++ w2 ++ '=' :: tail ∧
      AllWsL w1 ∧ IdentL idn ∧ AllWsL w2)

/-- The line grammar amended to what the validator's regular expression
actually accepts: the content parts matched by the regex wildcard must be
free of line terminators (which may still occur inside the whitespace
runs, where the regex matches them with the whitespace class). -/
def AmendedValidLine (l : List Char) : Prop :=
  AllWsL l
  ∨ (∃ w rest w2, l = w ++ '#' :: rest ++ w2 ∧ AllWsL w ∧ NoTermL rest ∧ AllWsL w2)
  ∨ (∃ w1 idn w2 wa mid wz, l = w1 ++ idn ++ w2 ++ '=' :: (wa ++ mid ++ wz) ∧
      AllWsL w1 ∧ IdentL idn ∧ AllWsL w2 ∧ AllWsL wa ∧ NoTermL mid ∧ AllWsL wz)

/-- A well-formed parsed key. -/
def GoodKey (k : String) : Prop := IdentL k.toList

/-- A well-formed parsed value: free of newlines and without leading
whitespace. -/
def GoodVal (v : String) : Prop :=
  ('\n' ∉ v.toList) ∧ ∀ c cs, v.toList = c :: cs → isJsWs c = false

/-! ## Concrete filesystems for witnesses and counterexamples -/

/-- A directory-mode project: root at /p, environments dev (with an
environment file) and the common file. -/
def fsDirCommon : FileSys where
  fsExists p := decide (p ∈ ["/p/env", "/p/env/dev", "/p/env/.env", "/p/env/dev/.env"])
  isDir p := decide (p ∈ ["/p/env", "/p/env/dev"])
  readFile p :=
    if p = "/p/env/.env" then "FOO=FOO
BAZ=QUX"
    else if p = "/p/env/dev/.env" then "FOO=BAR" else ""
  readdir p := if p = "/p/env" then [⟨"dev", true, false⟩] else []
  parent _ := "/"

/-- A flat-mode project: root at /p, a common file and one flat file. -/
def fsFlat : FileSys where
  fsExists p := decide (p ∈ ["/p/env", "/p/env/.env", "/p/env/.env.prod"])
  isDir p := decide (p = "/p/env")
  readFile p :=
    if p = "/p/env/.env" then "FOO=FOO"
    else if p = "/p/env/.env.prod" then "FOO=BAR" else ""
  readdir p :=
    if p = "/p/env" then [⟨".env", false, true⟩, ⟨".env.prod", false, true⟩] else []
  parent _ := "/"

/-- A genuinely mixed project: a subdirectory and a flat marker file. -/
def fsMixed : FileSys where
  fsExists p := decide (p ∈ ["/p/env", "/p/env/development", "/p/env/.env.prod"])
  isDir p := decide (p ∈ ["/p/env", "/p/env/development"])
  readFile _ := ""
  readdir p :=
    if p = "/p/env" then [⟨"development", true, false⟩, ⟨".env.prod", false, true⟩]
    else []
  parent _ := "/"

/-- A project holding a subdirectory and a file named `.env.` followed by
a carriage return and an x: the file name has a non-empty suffix after
`.env.` yet is not matched by the flat-marker regex. -/
def fsMixedCR : FileSys where
  fsExists p := decide (p ∈ ["/p/env", "/p/env/development"])
  isDir p := decide (p ∈ ["/p/env", "/p/env/development"])
  readFile _ := ""
  readdir p :=
    if p = "/p/env" then [⟨"development", true, false⟩, ⟨".env.\rx", false, true⟩]
    else []
  parent _ := "/"

/-- A flat project with one regular flat file and one whose suffix starts
with a carriage return. -/
def fsFlatCR : FileSys where
  fsExists p := decide (p ∈ ["/p/env"])
  isDir p := decide (p = "/p/env")
  readFile _ := ""
  readdir p :=
    if p = "/p/env" then [⟨".env.\rx", false, true⟩, ⟨".env.prod", false, true⟩]
    else []
  parent _ := "/"

/-- A directory-mode project whose common file reassigns ENVELOPE_ENV. -/
def fsOverride : FileSys where
  fsExists p := decide (p ∈ ["/p/env", "/p/env/dev", "/p/env/.env"])
  isDir p := decide (p ∈ ["/p/env", "/p/env/dev"])
  readFile p := if p = "/p/env/.env" then "ENVELOPE_ENV=evil" else ""
  readdir p := if p = "/p/env" then [⟨"dev", true, false⟩] else []
  parent _ := "/"

/-- A project whose only environment is the directory node_modules. -/
def fsNodeModules : FileSys where
  fsExists p := decide (p ∈ ["/p/env", "/p/env/node_modules"])
  isDir p := decide (p ∈ ["/p/env", "/p/env/node_modules"])
  readFile _ := ""
  readdir p := if p = "/p/env" then [⟨"node_modules", true, false⟩] else []
  parent _ := "/"

/-- A project with a node_modules directory and a flat file named
`.env.node_modules`. -/
def fsNodeModulesFlat : FileSys where
  fsExists p := decide (p ∈ ["/p/env", "/p/env/node_modules"])
  isDir p := decide (p ∈ ["/p/env", "/p/env/node_modules"])
  readFile _ := ""
  readdir p :=
    if p = "/p/env" then
      [⟨"node_modules", true, false⟩, ⟨".env.node_modules", false, true⟩]
    else []
  parent _ := "/"

/-- A project whose compiled output file assigns ENVELOPE_ENV the empty
value. -/
def fsEmptyCurrent : FileSys where
  fsExists p := decide (p ∈ ["/p/env", "/p/.env"])
  isDir p := decide (p = "/p/env")
  readFile p := if p = "/p/.env" then "ENVELOPE_ENV=\nFOO=1" else ""
  readdir _ := []
  parent _ := "/"

/-! ## Character class facts -/

theorem isJsWs_iff_mem (c : Char) : isJsWs c = true ↔ c ∈ jsWsChars := by
  simp [isJsWs]

theorem isLineTerm_iff_mem (c : Char) : isLineTerm c = true ↔ c ∈ lineTermChars := by
  simp [isLineTerm]

theorem ws_not_ident (c : Char) (h : isJsWs c = true) :
    isIdentStart c = false ∧ isIdentChar c = false := by
  have hm : c ∈ jsWsChars := (isJsWs_iff_mem c).mp h
  have hall : ∀ x ∈ jsWsChars, isIdentStart x = false ∧ isIdentChar x = false := by decide
  exact hall c hm

theorem identStart_not_ws (c : Char) (h : isIdentStart c = true) : isJsWs c = false := by
  cases hw : isJsWs c with
  | false => rfl
  | true => exact absurd h (by simp [(ws_not_ident c hw).1])

theorem identChar_not_ws (c : Char) (h : isIdentChar c = true) : isJsWs c = false := by
  cases hw : isJsWs c with
  | false => rfl
  | true => exact absurd h (by simp [(ws_not_ident c hw).2])

theorem lineTerm_is_ws (c : Char) (h : isLineTerm c = true) : isJsWs c = true := by
  have hm : c ∈ lineTermChars := (isLineTerm_iff_mem c).mp h
  have hall : ∀ x ∈ lineTermChars, isJsWs x = true := by decide
  exact hall c hm

theorem identChar_not_term (c : Char) (h : isIdentChar c = true) : isLineTerm c = false := by
  cases ht : isLineTerm c with
  | false => rfl
  | true => exact absurd (identChar_not_ws c h) (by simp [lineTerm_is_ws c ht])

/-! ## takeWhile and dropWhile helpers -/

theorem dropWhile_cons_neg {p : Char → Bool} {c : Char} {l : List Char}
    (h : p c = false) : (c :: l).dropWhile p = c :: l := by
  simp [List.dropWhile_cons, h]

theorem dropWhile_append_all {p : Char → Bool} {l1 l2 : List Char}
    (h : ∀ x ∈ l1, p x = true) : (l1 ++ l2).dropWhile p = l2.dropWhile p := by
  induction l1 with
  | nil => rfl
  | cons c cs ih =>
    have hc : p c = true := h c (by simp)
    simp only [List.cons_append, List.dropWhile_cons, hc, if_true]
    exact ih (fun x hx => h x (by simp [hx]))

theorem takeWhile_append_stop {p : Char → Bool} {l1 : List Char} {c : Char}
    (l2 : List Char) (h : ∀ x ∈ l1, p x = true) (hc : p c = false) :
    (l1 ++ c :: l2).takeWhile p = l1 := by
  induction l1 with
  | nil => simp [List.takeWhile_cons, hc]
  | cons a as ih =>
    have ha : p a = true := h a (by simp)
    simp only [List.cons_append, List.takeWhile_cons, ha, if_true]
    exact congrArg (a :: ·) (ih (fun x hx => h x (by simp [hx])))

theorem dropWhile_append_stop {p : Char → Bool} {l1 : List Char} {c : Char}
    (l2 : List Char) (h : ∀ x ∈ l1, p x = true) (hc : p c = false) :
    (l1 ++ c :: l2).dropWhile p = c :: l2 := by
  induction l1 with
  | nil => simp [List.dropWhile_cons, hc]
  | cons a as ih =>
    have ha : p a = true := h a (by simp)
    simp only [List.cons_append, List.dropWhile_cons, ha, if_true]
    exact ih (fun x hx => h x (by simp [hx]))

theorem mem_of_mem_dropWhile {p : Char → Bool} {l : List Char} {x : Char}
    (h : x ∈ l.dropWhile p) : x ∈ l :=
  (List.dropWhile_sublist p).mem h

theorem all_takeWhile {p : Char → Bool} {l : List Char} :
    ∀ x ∈ l.takeWhile p, p x = true := by
  induction l with
  | nil => simp
  | cons c cs ih =>
    intro x hx
    by_cases hc : p c = true
    · simp only [List.takeWhile_cons, hc, if_true, List.mem_cons] at hx
      rcases hx with rfl | hx
      · exact hc
      · exact ih x hx
    · simp [List.takeWhile_cons, Bool.eq_false_iff.mpr hc] at hx

theorem head_dropWhile_neg {p : Char → Bool} {l r : List Char} {c : Char}
    (h : l.dropWhile p = c :: r) : p c = false := by
  induction l with
  | nil => simp at h
  | cons a as ih =>
    by_cases ha : p a = true
    · simp only [List.dropWhile_cons, ha, if_true] at h
      exact ih h
    · replace ha := Bool.eq_false_iff.mpr ha
      rw [dropWhile_cons_neg ha] at h
      cases h
      exact ha

/-! ## Newline splitting -/

theorem splitNl_ne_nil (l : List Char) : splitNlChars l ≠ [] := by
  cases l with
  | nil => simp [splitNlChars]
  | cons c cs =>
    by_cases hc : c = '\n'
    · simp [splitNlChars, hc]
    · simp only [splitNlChars, if_neg hc]
      cases h : splitNlChars cs with
      | nil => simp
      | cons a b => simp

theorem exists_cons_splitNl (l : List Char) :
    ∃ x t, splitNlChars l = x :: t := by
  cases h : splitNlChars l with
  | nil => exact absurd h (splitNl_ne_nil l)
  | cons x t => exact ⟨x, t, rfl⟩

theorem splitNl_cons_nl (cs : List Char) :
    splitNlChars ('\n' :: cs) = [] :: splitNlChars cs := by
  simp [splitNlChars]

theorem splitNl_cons_other {c : Char} (hc : c ≠ '\n') {cs x : List Char}
    {t : List (List Char)} (h : splitNlChars cs = x :: t) :
    splitNlChars (c :: cs) = (c :: x) :: t := by
  simp [splitNlChars, hc, h]

theorem splitNl_append (a b : List Char) :
    splitNlChars (a ++ '\n' :: b) = splitNlChars a ++ splitNlChars b := by
  induction a with
  | nil =>
    rw [List.nil_append, splitNl_cons_nl]
    rfl
  | cons c cs ih =>
    by_cases hc : c = '\n'
    · subst hc
      rw [List.cons_append, splitNl_cons_nl, ih, splitNl_cons_nl]
      simp
    · obtain ⟨x, t, hs⟩ := exists_cons_splitNl cs
      have hy : splitNlChars (cs ++ '\n' :: b) = x :: (t ++ splitNlChars b) := by
        rw [ih, hs]; simp
      rw [List.cons_append, splitNl_cons_other hc hy, splitNl_cons_other hc hs]
      simp

theorem splitNl_no_nl {l : List Char} (h : '\n' ∉ l) : splitNlChars l = [l] := by
  induction l with
  | nil => rfl
  | cons c cs ih =>
    have hc : c ≠ '\n' := fun hx => h (by simp [hx])
    have hcs : '\n' ∉ cs := fun hx => h (by simp [hx])
    exact splitNl_cons_other hc (ih hcs)

theorem no_nl_of_mem_splitNl {l l' : List Char} (h : l' ∈ splitNlChars l) : '\n' ∉ l' := by
  induction l generalizing l' with
  | nil =>
    simp only [splitNlChars, List.mem_singleton] at h
    subst h; simp
  | cons c cs ih =>
    by_cases hc : c = '\n'
    · subst hc
      rw [splitNl_cons_nl] at h
      rcases List.mem_cons.mp h with rfl | h2
      · simp
      · exact ih h2
    · obtain ⟨x, t, hs⟩ := exists_cons_splitNl cs
      rw [splitNl_cons_other hc hs] at h
      rcases List.mem_cons.mp h with rfl | h2
      · intro hx
        rcases List.mem_cons.mp hx with rfl | hx
        · exact hc rfl
        · exact ih (by rw [hs]; exact List.mem_cons_self x t) hx
      · exact ih (by rw [hs]; exact List.mem_cons_of_mem x h2)

/-! ## Trailing-whitespace removal -/

theorem rdropWs_of_allWs {l : List Char} (h : AllWsL l) : rdropWs l = [] := by
  unfold rdropWs
  have : l.reverse.dropWhile isJsWs = [] := by
    apply List.dropWhile_eq_nil_iff.mpr
    intro x hx
    exact h x (List.mem_reverse.mp hx)
  simp [this]

theorem allWs_of_rdropWs_eq_nil {l : List Char} (h : rdropWs l = []) : AllWsL l := by
  unfold rdropWs at h
  have h2 : l.reverse.dropWhile isJsWs = [] := by
    have := congrArg List.reverse h
    simpa using this
  intro c hc
  exact List.dropWhile_eq_nil_iff.mp h2 c (List.mem_reverse.mpr hc)

theorem rdropWs_append_allWs {w : List Char} (a : List Char) (h : AllWsL w) :
    rdropWs (a ++ w) = rdropWs a := by
  unfold rdropWs
  rw [List.reverse_append]
  rw [dropWhile_append_all (fun x hx => h x (List.mem_reverse.mp hx))]

theorem rdropWs_append_not_allWs {b : List Char} (a : List Char) (h : ¬ AllWsL b) :
    rdropWs (a ++ b) = a ++ rdropWs b := by
  unfold rdropWs
  rw [List.reverse_append]
  have hb : b.reverse.dropWhile isJsWs ≠ [] := by
    intro hnil
    exact h (fun c hc =>
      List.dropWhile_eq_nil_iff.mp hnil c (List.mem_reverse.mpr hc))
  obtain ⟨c, r, hcr⟩ : ∃ c r, b.reverse.dropWhile isJsWs = c :: r := by
    cases hx : b.reverse.dropWhile isJsWs with
    | nil => exact absurd hx hb
    | cons c r => exact ⟨c, r, rfl⟩
  have hc : isJsWs c = false := head_dropWhile_neg hcr
  have hdec : b.reverse = b.reverse.takeWhile isJsWs ++ c :: r := by
    conv_lhs => rw [← List.takeWhile_append_dropWhile isJsWs b.reverse]
    rw [hcr]
  have key : List.dropWhile isJsWs (b.reverse ++ a.reverse) = c :: (r ++ a.reverse) := by
    conv_lhs => rw [hdec]
    rw [List.append_assoc, List.cons_append,
      dropWhile_append_all (fun x hx => all_takeWhile x hx)]
    exact dropWhile_cons_neg hc
  rw [key, hcr]
  simp

theorem rdropWs_cons_not_ws {c : Char} (l : List Char) (h : isJsWs c = false) :
    rdropWs (c :: l) = c :: rdropWs l := by
  by_cases hl : AllWsL l
  · rw [show c :: l = [c] ++ l by rfl, rdropWs_append_allWs [c] hl,
      rdropWs_of_allWs hl]
    unfold rdropWs
    simp [dropWhile_cons_neg h]
  · rw [show c :: l = [c] ++ l by rfl, rdropWs_append_not_allWs [c] hl]
    rfl

theorem mem_rdropWs {l : List Char} {x : Char} (h : x ∈ rdropWs l) : x ∈ l := by
  unfold rdropWs at h
  exact List.mem_reverse.mp (mem_of_mem_dropWhile (List.mem_reverse.mp h))

theorem rdropWs_decomp (l : List Char) :
    ∃ w, l = rdropWs l ++ w ∧ AllWsL w := by
  refine ⟨(l.reverse.takeWhile isJsWs).reverse, ?_, ?_⟩
  · unfold rdropWs
    have h1 : l.reverse.takeWhile isJsWs ++ l.reverse.dropWhile isJsWs = l.reverse :=
      List.takeWhile_append_dropWhile isJsWs l.reverse
    have h2 := congrArg List.reverse h1
    rw [List.reverse_append, List.reverse_reverse] at h2
    exact h2.symm
  · intro c hc
    exact all_takeWhile c (List.mem_reverse.mp hc)

theorem trim_decomp (l : List Char) :
    ∃ w1 w2, l = w1 ++ trimChars l ++ w2 ∧ AllWsL w1 ∧ AllWsL w2 := by
  obtain ⟨w2, hw2, hw2ws⟩ := rdropWs_decomp (l.dropWhile isJsWs)
  refine ⟨l.takeWhile isJsWs, w2, ?_, fun c hc => all_takeWhile c hc, hw2ws⟩
  conv_lhs => rw [← List.takeWhile_append_dropWhile isJsWs l]
  rw [hw2]
  unfold trimChars
  rw [List.append_assoc]

theorem trim_of_allWs {l : List Char} (h : AllWsL l) : trimChars l = [] := by
  unfold trimChars
  apply rdropWs_of_allWs
  intro c hc
  exact h c (mem_of_mem_dropWhile hc)

theorem allWs_of_trim_eq_nil {l : List Char} (h : trimChars l = []) : AllWsL l := by
  unfold trimChars at h
  have h2 := allWs_of_rdropWs_eq_nil h
  intro c hc
  by_cases hcw : isJsWs c = true
  · exact hcw
  · have : l.dropWhile isJsWs ≠ [] := by
      intro hnil
      exact hcw (List.dropWhile_eq_nil_iff.mp hnil c hc)
    obtain ⟨d, r, hdr⟩ : ∃ d r, l.dropWhile isJsWs = d :: r := by
      cases hx : l.dropWhile isJsWs with
      | nil => exact absurd hx this
      | cons d r => exact ⟨d, r, rfl⟩
    have hd := head_dropWhile_neg hdr
    have : isJsWs d = true := h2 d (by rw [hdr]; simp)
    rw [hd] at this
    exact absurd this (by simp)

theorem mem_trim {l : List Char} {x : Char} (h : x ∈ trimChars l) : x ∈ l := by
  unfold trimChars at h
  exact mem_of_mem_dropWhile (mem_rdropWs h)

theorem trim_head_not_ws {l r : List Char} {c : Char}
    (h : trimChars l = c :: r) : isJsWs c = false := by
  unfold trimChars at h
  obtain ⟨d, s, hds⟩ : ∃ d s, l.dropWhile isJsWs = d :: s := by
    cases hx : l.dropWhile isJsWs with
    | nil => rw [hx] at h; simp [rdropWs] at h
    | cons d s => exact ⟨d, s, rfl⟩
  have hd := head_dropWhile_neg hds
  rw [hds, rdropWs_cons_not_ws s hd] at h
  cases h
  exact hd

/-! ## Ordered-mapping laws -/

theorem envLookup_setKey (k k' v : String) (m : List (String × String)) :
    envLookup k (setKey m k' v) = if k' = k then some v else envLookup k m := by
  induction m with
  | nil =>
    by_cases h : k' = k <;> simp [setKey, envLookup, h]
  | cons kv rest ih =>
    obtain ⟨a, b⟩ := kv
    by_cases ha : a = k'
    · subst ha
      by_cases hk : a = k <;> simp [setKey, envLookup, hk]
    · simp only [setKey, if_neg ha]
      by_cases hk : a = k
      · subst hk
        rw [if_neg (fun h => ha h.symm)]
        simp [envLookup]
      · simp [envLookup, hk, ih]

theorem envLookup_processLines (k : String) (m : List (String × String))
    (ls : List (List Char)) :
    envLookup k (processLines m ls) =
      match lastVal k ls with
      | some v => some v
      | none => envLookup k m := by
  induction ls generalizing m with
  | nil => simp [processLines, lastVal]
  | cons l ls ih =>
    rw [processLines, ih]
    cases hrest : lastVal k ls with
    | some v => simp [lastVal, hrest]
    | none =>
      cases hp : parseAssign l with
      | none => simp [lastVal, hrest, hp]
      | some kv =>
        obtain ⟨k', v'⟩ := kv
        by_cases hk : k' = k
        · subst hk
          simp [lastVal, hrest, hp, envLookup_setKey]
        · simp [lastVal, hrest, hp, envLookup_setKey, hk]

theorem lastVal_append (k : String) (xs ys : List (List Char)) :
    lastVal k (xs ++ ys) =
      match lastVal k ys with
      | some v => some v
      | none => lastVal k xs := by
  induction xs with
  | nil =>
    cases h : lastVal k ys <;> simp [lastVal, h]
  | cons l ls ih =>
    rw [List.cons_append, lastVal, ih, lastVal]
    cases h : lastVal k ys with
    | some v => simp
    | none => rfl

theorem lastVal_append_none {k : String} {ys : List (List Char)}
    (xs : List (List Char)) (h : lastVal k ys = none) :
    lastVal k (xs ++ ys) = lastVal k xs := by
  rw [lastVal_append, h]

theorem lastVal_append_some {k v : String} {ys : List (List Char)}
    (xs : List (List Char)) (h : lastVal k ys = some v) :
    lastVal k (xs ++ ys) = some v := by
  rw [lastVal_append, h]

/-! ## Parsing single lines -/

theorem parseAssign_key_append {k : String} (rest : List Char) (hk : GoodKey k) :
    parseAssign (k.toList ++ '=' :: rest) =
      some (k, String.mk (rest.dropWhile isJsWs)) := by
  obtain ⟨c, cs, hkl, hcs, hall⟩ := hk
  rw [hkl, List.cons_append, parseAssign]
  have hcw : isJsWs c = false := identStart_not_ws c hcs
  rw [dropWhile_cons_neg hcw]
  simp only [if_pos hcs]
  have heq : isIdentChar '=' = false := by decide
  have hws : isJsWs '=' = false := by decide
  rw [takeWhile_append_stop rest hall heq, dropWhile_append_stop rest hall heq,
    dropWhile_cons_neg hws]
  have hstr : String.mk (c :: cs) = k := by
    apply String.ext
    exact hkl.symm
  simp [hstr]

theorem parseAssign_shape {l : List Char} {k v : String}
    (h : parseAssign l = some (k, v)) :
    GoodKey k ∧ (∀ c cs, v.toList = c :: cs → isJsWs c = false) ∧
      (∀ x ∈ v.toList, x ∈ l) := by
  rw [parseAssign] at h
  split at h
  · exact absurd h (by simp)
  · rename_i c rest hcr
    split at h
    · rename_i hc
      split at h
      · rename_i tail htail
        simp only [Option.some.injEq, Prod.mk.injEq] at h
        obtain ⟨hk, hv⟩ := h
        refine ⟨?_, ?_, ?_⟩
        · rw [← hk]
          exact ⟨c, rest.takeWhile isIdentChar, rfl, hc,
            fun x hx => all_takeWhile x hx⟩
        · intro c2 cs2 hv2
          rw [← hv] at hv2
          exact head_dropWhile_neg (by simpa using hv2)
        · intro x hx
          rw [← hv] at hx
          have h1 : x ∈ tail := mem_of_mem_dropWhile (by simpa using hx)
          have h2 : x ∈ '=' :: tail := by simp [h1]
          rw [← htail] at h2
          have h3 : x ∈ rest.dropWhile isIdentChar := mem_of_mem_dropWhile h2
          have h4 : x ∈ rest := mem_of_mem_dropWhile h3
          have h5 : x ∈ c :: rest := by simp [h4]
          rw [← hcr] at h5
          exact mem_of_mem_dropWhile h5
      · exact absurd h (by simp)
    · exact absurd h (by simp)

/-! ## The merged text and its lines -/

theorem toList_append (a b : String) : (a ++ b).toList = a.toList ++ b.toList := rfl

theorem merged_lines (fs : FileSys) (cfg env : String) (dm : Bool) :
    splitNlChars (mergedEnvText fs cfg env dm).toList =
      splitNlChars ("ENVELOPE_ENV=" ++ env ++ "\n" ++ "ENVELOPE_DIR=" ++
        (if dm then pathJoin cfg env else cfg) ++ "\n").toList
      ++ (if fs.fsExists (pathJoin cfg ".env") then
            splitNlChars (fs.readFile (pathJoin cfg ".env")).toList else [])
      ++ (if fs.fsExists (if dm then pathJoin (pathJoin cfg env) ".env"
            else pathJoin cfg (".env." ++ env)) then
            splitNlChars (fs.readFile (if dm then pathJoin (pathJoin cfg env) ".env"
              else pathJoin cfg (".env." ++ env))).toList else []) := by
  unfold mergedEnvText
  by_cases hc : fs.fsExists (pathJoin cfg ".env") = true
  · by_cases hs : fs.fsExists (if dm then pathJoin (pathJoin cfg env) ".env"
        else pathJoin cfg (".env." ++ env)) = true
    · simp only [hc, hs, if_true]
      rw [show ∀ a b c : String, (a ++ "\n" ++ b) ++ "\n" ++ c = a ++ "\n" ++ b ++ "\n" ++ c
        from fun a b c => by simp [String.append_assoc]]
      rw [toList_append, toList_append, toList_append, toList_append]
      rw [show ("\n" : String).toList = ['\n'] from rfl]
      rw [List.append_assoc, List.append_assoc, List.append_assoc]
      rw [show ∀ x y : List Char, ['\n'] ++ (x ++ (['\n'] ++ y)) = '\n' :: (x ++ '\n' :: y)
        from fun x y => by simp]
      rw [splitNl_append, splitNl_append]
      simp
    · simp only [hc, if_true, if_neg hs]
      rw [toList_append, toList_append]
      rw [show ("\n" : String).toList = ['\n'] from rfl]
      rw [List.append_assoc]
      rw [show ∀ x : List Char, ['\n'] ++ x = '\n' :: x from fun x => by simp]
      rw [splitNl_append]
      simp
  · by_cases hs : fs.fsExists (if dm then pathJoin (pathJoin cfg env) ".env"
        else pathJoin cfg (".env." ++ env)) = true
    · simp only [if_neg hc, hs, if_true]
      rw [toList_append, toList_append]
      rw [show ("\n" : String).toList = ['\n'] from rfl]
      rw [List.append_assoc]
      rw [show ∀ x : List Char, ['\n'] ++ x = '\n' :: x from fun x => by simp]
      rw [splitNl_append]
      simp
    · simp [if_neg hc, if_neg hs]

theorem no_nl_toList_append {a b : String} (ha : '\n' ∉ a.toList)
    (hb : '\n' ∉ b.toList) : '\n' ∉ (a ++ b).toList := by
  rw [toList_append]
  intro h
  rcases List.mem_append.mp h with h | h
  · exact ha h
  · exact hb h

theorem base_split {env envDir : String} (he : '\n' ∉ env.toList)
    (hd : '\n' ∉ envDir.toList) :
    splitNlChars ("ENVELOPE_ENV=" ++ env ++ "\n" ++ "ENVELOPE_DIR=" ++ envDir ++ "\n").toList
      = [("ENVELOPE_ENV=" ++ env).toList, ("ENVELOPE_DIR=" ++ envDir).toList, []] := by
  have h0 : ("ENVELOPE_ENV=" ++ env ++ "\n" ++ "ENVELOPE_DIR=" ++ envDir ++ "\n").toList
      = ("ENVELOPE_ENV=" ++ env).toList ++
        '\n' :: (("ENVELOPE_DIR=" ++ envDir).toList ++ '\n' :: []) := by
    simp only [toList_append]
    rw [show ("\n" : String).toList = ['\n'] from rfl]
    simp [List.append_assoc]
  rw [h0, splitNl_append, splitNl_append]
  have h1 : '\n' ∉ ("ENVELOPE_ENV=" ++ env).toList :=
    no_nl_toList_append (by decide) he
  have h2 : '\n' ∉ ("ENVELOPE_DIR=" ++ envDir).toList :=
    no_nl_toList_append (by decide) hd
  rw [splitNl_no_nl h1, splitNl_no_nl h2]
  rfl

theorem parseAssign_envelope_env (env : String) :
    parseAssign (("ENVELOPE_ENV=" ++ env).toList) =
      some ("ENVELOPE_ENV", String.mk (env.toList.dropWhile isJsWs)) := by
  have h : ("ENVELOPE_ENV=" ++ env).toList =
      ("ENVELOPE_ENV" : String).toList ++ '=' :: env.toList := by
    rw [toList_append]
    rfl
  rw [h]
  exact parseAssign_key_append env.toList
    ⟨'E', "NVELOPE_ENV".toList, rfl, by decide, by decide⟩

theorem parseAssign_envelope_dir (envDir : String) :
    parseAssign (("ENVELOPE_DIR=" ++ envDir).toList) =
      some ("ENVELOPE_DIR", String.mk (envDir.toList.dropWhile isJsWs)) := by
  have h : ("ENVELOPE_DIR=" ++ envDir).toList =
      ("ENVELOPE_DIR" : String).toList ++ '=' :: envDir.toList := by
    rw [toList_append]
    rfl
  rw [h]
  exact parseAssign_key_append envDir.toList
    ⟨'E', "NVELOPE_DIR".toList, rfl, by decide, by decide⟩

theorem dropWhile_ws_of_head {s : String}
    (h : ∀ c cs, s.toList = c :: cs → isJsWs c = false) :
    s.toList.dropWhile isJsWs = s.toList := by
  cases hx : s.toList with
  | nil => rfl
  | cons c cs => exact dropWhile_cons_neg (h c cs hx)

theorem mk_toList (s : String) : String.mk s.toList = s := by
  apply String.ext
  rfl

theorem getCompiledEnv_ok {fs : FileSys} {cfg env : String}
    {m : List (String × String)} (h : getCompiledEnv fs cfg env = .ok m) :
    assertSingleEnvMode fs cfg = .ok () ∧
    (isDirectoryMode fs cfg env = true ∨
      fs.fsExists (pathJoin cfg (".env." ++ env)) = true) ∧
    validateEnvString (mergedEnvText fs cfg env (isDirectoryMode fs cfg env)) = .ok () ∧
    m = parseEnvString (mergedEnvText fs cfg env (isDirectoryMode fs cfg env)) := by
  unfold getCompiledEnv at h
  split at h
  · exact Except.noConfusion h
  · rename_i ha
    split at h
    · exact Except.noConfusion h
    · rename_i hmode
      split at h
      · exact Except.noConfusion h
      · rename_i u hval
        simp only [Except.ok.injEq] at h
        refine ⟨ha, ?_, hval, h.symm⟩
        by_cases hd : isDirectoryMode fs cfg env = true
        · exact Or.inl hd
        · right
          simp only [Bool.not_eq_true] at hd
          simp only [hd] at hmode
          simpa using hmode

/-! ## Inversion helpers for the operations -/

theorem compileDotEnv_ok {fs : FileSys} {cfg env text : String}
    (h : compileDotEnv fs cfg env = .ok text) :
    ∃ m, getCompiledEnv fs cfg env = .ok m ∧ text = serializeEnv m := by
  unfold compileDotEnv at h
  cases hg : getCompiledEnv fs cfg env with
  | error e => rw [hg] at h; exact Except.noConfusion h
  | ok m =>
    rw [hg] at h
    simp only [Except.map, Except.ok.injEq] at h
    exact ⟨m, rfl, h.symm⟩

theorem validate_error_shape {s : String} {e : EnvError}
    (h : validateEnvString s = .error e) : ∃ n c, e = .invalidFormat n c := by
  unfold validateEnvString at h
  split at h
  · exact Except.noConfusion h
  · rename_i i t hfb
    exact ⟨i, String.mk t, by injection h with h2; exact h2.symm⟩

theorem toList_eq_nil_iff (s : String) : s.toList = [] ↔ s = "" := by
  constructor
  · intro h
    apply String.ext
    exact h
  · intro h
    rw [h]
    rfl

theorem isFlatName_iff (n : String) :
    isFlatName n = true ↔
      ∃ suf, suf ≠ "" ∧ (∀ c cs, suf.toList = c :: cs → isLineTerm c = false) ∧
        n = ".env." ++ suf := by
  constructor
  · intro h
    unfold isFlatName at h
    split at h
    · rename_i c rest hn
      refine ⟨String.mk (c :: rest), ?_, ?_, ?_⟩
      · intro hx
        have := congrArg String.toList hx
        simp at this
      · intro c2 cs2 hc2
        have : c2 = c := by
          have h0 : (String.mk (c :: rest)).toList = c :: rest := rfl
          rw [h0] at hc2
          exact ((List.cons.injEq _ _ _ _ ▸ hc2).1).symm
        rw [this]
        simpa using h
      · apply String.ext
        rw [show (".env." ++ String.mk (c :: rest)).data =
          ".env.".data ++ (c :: rest) from rfl]
        exact hn
    · exact Bool.noConfusion h
  · rintro ⟨suf, hne, hterm, rfl⟩
    obtain ⟨c, cs, hcs⟩ : ∃ c cs, suf.toList = c :: cs := by
      cases hx : suf.toList with
      | nil => exact absurd ((toList_eq_nil_iff suf).mp hx) hne
      | cons c cs => exact ⟨c, cs, rfl⟩
    unfold isFlatName
    have hshape : (".env." ++ suf).toList = '.' :: 'e' :: 'n' :: 'v' :: '.' :: c :: cs := by
      rw [toList_append, hcs]
      rfl
    rw [hshape]
    simp [hterm c cs hcs]

/-- Claim C1 (amended).  In a configuration directory holding both a
subdirectory other than node_modules and a regular file named `.env.`
followed by a non-empty suffix whose first character is not a line
terminator, the operations get (via getCompiledEnv), list and use all
fail with the IncompatibleModes error of that directory, for every
requested environment name, before resolving or compiling anything. -/
theorem claim1_mixed_modes (fs : FileSys) (rootDir : String)
    (hsub : ∃ e ∈ fs.readdir (pathJoin rootDir "env"),
      e.isDirectory = true ∧ e.name ≠ "node_modules")
    (hflat : ∃ e ∈ fs.readdir (pathJoin rootDir "env"), e.isFile = true ∧
      ∃ suf, suf ≠ "" ∧ (∀ c cs, suf.toList = c :: cs → isLineTerm c = false) ∧
        e.name = ".env." ++ suf) :
    (∀ env, getCompiledEnv fs (pathJoin rootDir "env") env =
      .error (.incompatibleModes (pathJoin rootDir "env"))) ∧
    list fs (pathJoin rootDir "env") =
      .error (.incompatibleModes (pathJoin rootDir "env")) ∧
    (∀ env, useFrom fs rootDir env =
      (fs, .error (.incompatibleModes (pathJoin rootDir "env")))) := by
  obtain ⟨e1, he1, hd1, hn1⟩ := hsub
  obtain ⟨e2, he2, hf2, suf, hsuf⟩ := hflat
  have hsubs : hasSubdirs fs (pathJoin rootDir "env") = true := by
    unfold hasSubdirs
    rw [List.any_eq_true]
    exact ⟨e1, he1, by simp [hd1, bne_iff_ne, hn1]⟩
  have hflats : hasFlatFiles fs (pathJoin rootDir "env") = true := by
    unfold hasFlatFiles
    rw [List.any_eq_true]
    refine ⟨e2, he2, ?_⟩
    rw [hf2, (isFlatName_iff e2.name).mpr ⟨suf, hsuf⟩]
    rfl
  have hassert : assertSingleEnvMode fs (pathJoin rootDir "env") =
      .error (.incompatibleModes (pathJoin rootDir "env")) := by
    unfold assertSingleEnvMode
    rw [hsubs, hflats]
    rfl
  refine ⟨?_, ?_, ?_⟩
  · intro env
    unfold getCompiledEnv
    rw [hassert]
  · unfold list
    rw [hassert]
  · intro env
    unfold useFrom compileDotEnv getCompiledEnv
    rw [hassert]
    rfl

/-- Claim C1 counterexample.  The configuration directory /p/env of
fsMixedCR contains the subdirectory development and the regular file
named `.env.` followed by the non-empty suffix carriage-return-x, yet
list succeeds and get resolves and compiles the environment development:
the flat-marker regex does not count a file whose suffix starts with a
line terminator, so the claimed hypothesis does not force the
IncompatibleModes failure. -/
theorem claim1_counterexample :
    (∃ e ∈ fsMixedCR.readdir "/p/env", e.isDirectory = true ∧
      e.name ≠ "node_modules") ∧
    (∃ e ∈ fsMixedCR.readdir "/p/env", e.isFile = true ∧
      ∃ suf, suf ≠ "" ∧ e.name = ".env." ++ suf) ∧
    list fsMixedCR "/p/env" = .ok ["development"] ∧
    getCompiledEnv fsMixedCR "/p/env" "development" =
      .ok [("ENVELOPE_ENV", "development"),
           ("ENVELOPE_DIR", "/p/env/development")] := by
  refine ⟨⟨⟨"development", true, false⟩, ?_, rfl, by decide⟩,
    ⟨⟨".env.\rx", false, true⟩, ?_, rfl, "\rx", by decide, by decide⟩, ?_, ?_⟩
  · simp [fsMixedCR]
  · simp [fsMixedCR]
  · rfl
  · rfl

/-- Claim C5.  The use operation leaves the filesystem untouched whenever
any stage fails, and writes the compiled text to the output file of the
located root only when compilation, hence validation of the merged text,
has succeeded. -/
theorem claim5_use_atomic (fs : FileSys) (fuel : Nat) (cwd env : String) :
    (∀ fs2 e, use fs fuel cwd env = some (fs2, .error e) → fs2 = fs) ∧
    (∀ fs2, use fs fuel cwd env = some (fs2, .ok ()) →
      ∃ rootDir text, getRootDir fs fuel cwd = some (.ok rootDir) ∧
        compileDotEnv fs (pathJoin rootDir "env") env = .ok text ∧
        validateEnvString (mergedEnvText fs (pathJoin rootDir "env") env
          (isDirectoryMode fs (pathJoin rootDir "env") env)) = .ok () ∧
        fs2 = fs.writeFile (pathJoin rootDir ".env") text) := by
  constructor
  · intro fs2 e h
    unfold use at h
    split at h
    · exact Option.noConfusion h
    · rename_i e2 hroot
      simp only [Option.some.injEq, Prod.mk.injEq] at h
      exact h.1.symm
    · rename_i rootDir hroot
      unfold useFrom at h
      split at h
      · rename_i e3 hcomp
        simp only [Option.some.injEq, Prod.mk.injEq] at h
        exact h.1.symm
      · rename_i text hcomp
        simp only [Option.some.injEq, Prod.mk.injEq] at h
        exact Except.noConfusion h.2
  · intro fs2 h
    unfold use at h
    split at h
    · exact Option.noConfusion h
    · rename_i e2 hroot
      simp only [Option.some.injEq, Prod.mk.injEq] at h
      exact Except.noConfusion h.2
    · rename_i rootDir hroot
      unfold useFrom at h
      split at h
      · rename_i e3 hcomp
        simp only [Option.some.injEq, Prod.mk.injEq] at h
        exact Except.noConfusion h.2
      · rename_i text hcomp
        simp only [Option.some.injEq, Prod.mk.injEq] at h
        obtain ⟨m, hm, -⟩ := compileDotEnv_ok hcomp
        obtain ⟨-, -, hval, -⟩ := getCompiledEnv_ok hm
        exact ⟨rootDir, text, hroot, hcomp, hval, h.1.symm⟩

/-- Claim C5 witness: a successful use invocation on the directory-mode
project writes exactly the compiled text to /p/.env. -/
theorem claim5_witness :
    ∃ rootDir text, getRootDir fsDirCommon 3 "/p" = some (.ok rootDir) ∧
      compileDotEnv fsDirCommon (pathJoin rootDir "env") "dev" = .ok text ∧
      validateEnvString (mergedEnvText fsDirCommon (pathJoin rootDir "env") "dev"
        (isDirectoryMode fsDirCommon (pathJoin rootDir "env") "dev")) = .ok () ∧
      fsDirCommon.writeFile (pathJoin "/p" ".env")
          "ENVELOPE_ENV=dev\nENVELOPE_DIR=/p/env/dev\nFOO=BAR\nBAZ=QUX" =
        fsDirCommon.writeFile (pathJoin rootDir ".env") text :=
  (claim5_use_atomic fsDirCommon 3 "/p" "dev").2
    (fsDirCommon.writeFile (pathJoin "/p" ".env")
      "ENVELOPE_ENV=dev\nENVELOPE_DIR=/p/env/dev\nFOO=BAR\nBAZ=QUX") rfl

/-- Claim C7.  When neither the environment subdirectory nor the flat
file exists, resolution fails with EnvironmentNotFound carrying both
probed paths; when the flat file exists (and the layout is not mixed),
resolution always proceeds past the not-found check, compilation failing
only through validation if at all. -/
theorem claim7_resolution (fs : FileSys) (cfg env : String)
    (hnm : ¬(hasSubdirs fs cfg = true ∧ hasFlatFiles fs cfg = true)) :
    (isDirectoryMode fs cfg env = false →
      fs.fsExists (pathJoin cfg (".env." ++ env)) = false →
      getCompiledEnv fs cfg env =
        .error (.environmentNotFound env (pathJoin cfg env)
          (pathJoin cfg (".env." ++ env)))) ∧
    (fs.fsExists (pathJoin cfg (".env." ++ env)) = true →
      getCompiledEnv fs cfg env =
        .ok (parseEnvString (mergedEnvText fs cfg env (isDirectoryMode fs cfg env))) ∨
      ∃ n c, getCompiledEnv fs cfg env = .error (.invalidFormat n c)) := by
  have hassert : assertSingleEnvMode fs cfg = .ok () := by
    unfold assertSingleEnvMode
    have : (hasSubdirs fs cfg && hasFlatFiles fs cfg) = false := by
      cases hs : hasSubdirs fs cfg <;> cases hf : hasFlatFiles fs cfg <;>
        simp_all
    rw [this]
    rfl
  constructor
  · intro hdm hflat
    unfold getCompiledEnv
    rw [hassert, hdm, hflat]
    rfl
  · intro hflat
    unfold getCompiledEnv
    rw [hassert, hflat]
    cases hdm : isDirectoryMode fs cfg env with
    | true =>
      rw [if_neg (by decide)]
      cases hv : validateEnvString (mergedEnvText fs cfg env true) with
      | error e =>
        right
        obtain ⟨n, c, rfl⟩ := validate_error_shape hv
        exact ⟨n, c, by simp [hv]⟩
      | ok u => cases u; left; simp [hv]
    | false =>
      rw [if_neg (by decide)]
      cases hv : validateEnvString (mergedEnvText fs cfg env false) with
      | error e =>
        right
        obtain ⟨n, c, rfl⟩ := validate_error_shape hv
        exact ⟨n, c, by simp [hv]⟩
      | ok u => cases u; left; simp [hv]

/-- Claim C7 witness: probing a missing name reports both paths, and a
present flat file resolves. -/
theorem claim7_witness :
    getCompiledEnv fsDirCommon "/p/env" "nope" =
      .error (.environmentNotFound "nope" "/p/env/nope" "/p/env/.env.nope") ∧
    (getCompiledEnv fsFlat "/p/env" "prod" =
      .ok (parseEnvString (mergedEnvText fsFlat "/p/env" "prod"
        (isDirectoryMode fsFlat "/p/env" "prod"))) ∨
     ∃ n c, getCompiledEnv fsFlat "/p/env" "prod" = .error (.invalidFormat n c)) :=
  ⟨(claim7_resolution fsDirCommon "/p/env" "nope" (by decide)).1 rfl rfl,
   (claim7_resolution fsFlat "/p/env" "prod" (by decide)).2 rfl⟩

/-- Claim C9.  The current operation fails with the missing-file error
when the output file is absent, and with the missing-key error both when
ENVELOPE_ENV is absent from the parsed file and when it is present with
the empty value: the check is a truthiness test, so the empty string is
treated like an absent key. -/
theorem claim9_current_truthiness (fs : FileSys) (rootDir : String) :
    (fs.fsExists (pathJoin rootDir ".env") = false →
      currentFrom fs rootDir = .error .missingEnvFile) ∧
    (fs.fsExists (pathJoin rootDir ".env") = true →
      validateEnvString (fs.readFile (pathJoin rootDir ".env")) = .ok () →
      (envLookup "ENVELOPE_ENV"
          (parseEnvString (fs.readFile (pathJoin rootDir ".env"))) = none ∨
       envLookup "ENVELOPE_ENV"
          (parseEnvString (fs.readFile (pathJoin rootDir ".env"))) = some "") →
      currentFrom fs rootDir = .error .missingEnvelopeEnv) := by
  constructor
  · intro h
    unfold currentFrom
    rw [h]
    simp
  · intro hex hval hlook
    unfold currentFrom
    rw [hex]
    simp only [if_true]
    rw [hval]
    rcases hlook with h | h
    · rw [h]
    · rw [h]
      simp

/-- Claim C9 witness: a compiled output file containing the line
ENVELOPE_ENV= (empty value) makes current fail with the missing-key
error. -/
theorem claim9_witness :
    currentFrom fsEmptyCurrent "/p" = .error .missingEnvelopeEnv :=
  (claim9_current_truthiness fsEmptyCurrent "/p").2 rfl rfl (Or.inr rfl)

/-- Claim C1 witness: a genuinely mixed directory makes get, list and use
all fail with IncompatibleModes. -/
theorem claim1_witness :
    (∀ env, getCompiledEnv fsMixed (pathJoin "/p" "env") env =
      .error (.incompatibleModes (pathJoin "/p" "env"))) ∧
    list fsMixed (pathJoin "/p" "env") =
      .error (.incompatibleModes (pathJoin "/p" "env")) ∧
    (∀ env, useFrom fsMixed "/p" env =
      (fsMixed, .error (.incompatibleModes (pathJoin "/p" "env")))) :=
  claim1_mixed_modes fsMixed "/p"
    ⟨⟨"development", true, false⟩, by decide, rfl, by decide⟩
    ⟨⟨".env.prod", false, true⟩, by decide, rfl, "prod", by decide,
      fun c cs h => by cases h; decide, rfl⟩

/-- Claim C2.  A key assigned in both the common file and the
environment-specific file compiles to the environment-specific value,
since the specific file is appended after the common file and the parser
lets later assignments win. -/
theorem claim2_specific_overrides_common (fs : FileSys) (cfg env k v : String)
    (m : List (String × String))
    (hm : getCompiledEnv fs cfg env = .ok m)
    (hc : fs.fsExists (pathJoin cfg ".env") = true)
    (hs : fs.fsExists (specificEnvPath fs cfg env) = true)
    (_hck : lastVal k (splitNlChars (fs.readFile (pathJoin cfg ".env")).toList) ≠ none)
    (hsk : lastVal k
      (splitNlChars (fs.readFile (specificEnvPath fs cfg env)).toList) = some v) :
    envLookup k m = some v := by
  obtain ⟨-, -, -, hmeq⟩ := getCompiledEnv_ok hm
  rw [hmeq]
  unfold parseEnvString
  rw [envLookup_processLines]
  have hsplit := merged_lines fs cfg env (isDirectoryMode fs cfg env)
  have hspec : (if isDirectoryMode fs cfg env then pathJoin (pathJoin cfg env) ".env"
      else pathJoin cfg (".env." ++ env)) = specificEnvPath fs cfg env := rfl
  rw [hspec] at hsplit
  rw [hsplit, hc, hs]
  simp only [if_true]
  rw [lastVal_append]
  rw [hsk]

/-- Claim C2 witness: FOO is assigned FOO in the common file and BAR in
the dev file; the compiled mapping binds FOO to BAR. -/
theorem claim2_witness :
    envLookup "FOO" [("ENVELOPE_ENV", "dev"), ("ENVELOPE_DIR", "/p/env/dev"),
      ("FOO", "BAR"), ("BAZ", "QUX")] = some "BAR" :=
  claim2_specific_overrides_common fsDirCommon "/p/env" "dev" "FOO" "BAR"
    [("ENVELOPE_ENV", "dev"), ("ENVELOPE_DIR", "/p/env/dev"),
      ("FOO", "BAR"), ("BAZ", "QUX")]
    rfl rfl rfl (by decide) rfl

/-! ## The synthetic assignments at the head of the merged text -/

theorem pathJoin_head {cfg : String} (env : String)
    (h : ∀ c cs, cfg.toList = c :: cs → isJsWs c = false) :
    ∀ c cs, (pathJoin cfg env).toList = c :: cs → isJsWs c = false := by
  intro c cs hj
  unfold pathJoin at hj
  rw [toList_append, toList_append] at hj
  cases hx : cfg.toList with
  | nil =>
    rw [hx] at hj
    simp only [List.nil_append] at hj
    have : c = '/' := by
      have : ('/' :: env.toList : List Char) = c :: cs := hj
      exact (List.cons.injEq _ _ _ _ ▸ this).1.symm
    rw [this]
    decide
  | cons a as =>
    rw [hx] at hj
    simp only [List.cons_append] at hj
    have : a = c := (List.cons.injEq _ _ _ _ ▸ hj).1
    rw [← this]
    exact h a as hx

theorem pathJoin_no_nl {cfg env : String} (h1 : '\n' ∉ cfg.toList)
    (h2 : '\n' ∉ env.toList) : '\n' ∉ (pathJoin cfg env).toList := by
  unfold pathJoin
  exact no_nl_toList_append (no_nl_toList_append h1 (by decide)) h2

theorem lastVal_baseLines {env envDir : String}
    (he : ∀ c cs, env.toList = c :: cs → isJsWs c = false)
    (hd : ∀ c cs, envDir.toList = c :: cs → isJsWs c = false) :
    lastVal "ENVELOPE_ENV" [("ENVELOPE_ENV=" ++ env).toList,
      ("ENVELOPE_DIR=" ++ envDir).toList, []] = some env ∧
    lastVal "ENVELOPE_DIR" [("ENVELOPE_ENV=" ++ env).toList,
      ("ENVELOPE_DIR=" ++ envDir).toList, []] = some envDir := by
  have hpe := parseAssign_envelope_env env
  have hpd := parseAssign_envelope_dir envDir
  rw [dropWhile_ws_of_head he, mk_toList] at hpe
  rw [dropWhile_ws_of_head hd, mk_toList] at hpd
  have hnil : parseAssign ([] : List Char) = none := rfl
  constructor
  · rw [lastVal, lastVal, lastVal, lastVal, hnil, hpe, hpd]
    simp [show ¬("ENVELOPE_DIR" : String) = "ENVELOPE_ENV" from by decide]
  · rw [lastVal, lastVal, lastVal, lastVal, hnil, hpe, hpd]
    simp

/-- Claim C3 (amended).  A successfully compiled mapping binds
ENVELOPE_ENV to the requested name and ENVELOPE_DIR to the environment's
source directory, provided the name and the configuration path contain no
newline and do not begin with whitespace, and provided neither input file
reassigns either synthetic key (the seeded synthetic lines come first, so
any later assignment in a file overrides them). -/
theorem claim3_synthetic_entries (fs : FileSys) (cfg env : String)
    (m : List (String × String))
    (hm : getCompiledEnv fs cfg env = .ok m)
    (henv1 : '\n' ∉ env.toList)
    (henv2 : ∀ c cs, env.toList = c :: cs → isJsWs c = false)
    (hcfg1 : '\n' ∉ cfg.toList)
    (hcfg2 : ∀ c cs, cfg.toList = c :: cs → isJsWs c = false)
    (hnoCommon : ∀ k, (k = "ENVELOPE_ENV" ∨ k = "ENVELOPE_DIR") →
      fs.fsExists (pathJoin cfg ".env") = true →
      lastVal k (splitNlChars (fs.readFile (pathJoin cfg ".env")).toList) = none)
    (hnoSpec : ∀ k, (k = "ENVELOPE_ENV" ∨ k = "ENVELOPE_DIR") →
      fs.fsExists (specificEnvPath fs cfg env) = true →
      lastVal k (splitNlChars
        (fs.readFile (specificEnvPath fs cfg env)).toList) = none) :
    envLookup "ENVELOPE_ENV" m = some env ∧
    envLookup "ENVELOPE_DIR" m =
      some (if isDirectoryMode fs cfg env then pathJoin cfg env else cfg) := by
  obtain ⟨-, -, -, hmeq⟩ := getCompiledEnv_ok hm
  have hdirHead : ∀ c cs,
      (if isDirectoryMode fs cfg env then pathJoin cfg env else cfg).toList = c :: cs →
      isJsWs c = false := by
    cases isDirectoryMode fs cfg env with
    | true => simpa using pathJoin_head env hcfg2
    | false => simpa using hcfg2
  have hdirNl : '\n' ∉ (if isDirectoryMode fs cfg env then pathJoin cfg env
      else cfg).toList := by
    cases isDirectoryMode fs cfg env with
    | true => simpa using pathJoin_no_nl hcfg1 henv1
    | false => simpa using hcfg1
  have hbase := lastVal_baseLines henv2 hdirHead
  have main : ∀ k val, (k = "ENVELOPE_ENV" ∨ k = "ENVELOPE_DIR") →
      lastVal k [("ENVELOPE_ENV=" ++ env).toList,
        ("ENVELOPE_DIR=" ++ (if isDirectoryMode fs cfg env then pathJoin cfg env
          else cfg)).toList, []] = some val →
      envLookup k m = some val := by
    intro k val hk hlast
    rw [hmeq]
    unfold parseEnvString
    rw [envLookup_processLines]
    have hsplit := merged_lines fs cfg env (isDirectoryMode fs cfg env)
    have hspec : (if isDirectoryMode fs cfg env then pathJoin (pathJoin cfg env) ".env"
        else pathJoin cfg (".env." ++ env)) = specificEnvPath fs cfg env := rfl
    rw [hspec] at hsplit
    rw [hsplit]
    have hcNone : lastVal k (if fs.fsExists (pathJoin cfg ".env") = true then
        splitNlChars (fs.readFile (pathJoin cfg ".env")).toList else []) = none := by
      by_cases hex : fs.fsExists (pathJoin cfg ".env") = true
      · rw [if_pos hex]
        exact hnoCommon k hk hex
      · rw [if_neg hex]
        rfl
    have hsNone : lastVal k (if fs.fsExists (specificEnvPath fs cfg env) = true then
        splitNlChars (fs.readFile (specificEnvPath fs cfg env)).toList else []) = none := by
      by_cases hex : fs.fsExists (specificEnvPath fs cfg env) = true
      · rw [if_pos hex]
        exact hnoSpec k hk hex
      · rw [if_neg hex]
        rfl
    rw [lastVal_append_none _ hsNone, lastVal_append_none _ hcNone,
      base_split henv1 hdirNl, hlast]
  exact ⟨main "ENVELOPE_ENV" env (Or.inl rfl) hbase.1,
    main "ENVELOPE_DIR" _ (Or.inr rfl) hbase.2⟩

/-- Claim C3 witness: the directory-mode project compiles dev with both
synthetic entries intact. -/
theorem claim3_witness :
    envLookup "ENVELOPE_ENV" [("ENVELOPE_ENV", "dev"), ("ENVELOPE_DIR", "/p/env/dev"),
      ("FOO", "BAR"), ("BAZ", "QUX")] = some "dev" ∧
    envLookup "ENVELOPE_DIR" [("ENVELOPE_ENV", "dev"), ("ENVELOPE_DIR", "/p/env/dev"),
      ("FOO", "BAR"), ("BAZ", "QUX")] =
      some (if isDirectoryMode fsDirCommon "/p/env" "dev" then
        pathJoin "/p/env" "dev" else "/p/env") :=
  claim3_synthetic_entries fsDirCommon "/p/env" "dev"
    [("ENVELOPE_ENV", "dev"), ("ENVELOPE_DIR", "/p/env/dev"),
      ("FOO", "BAR"), ("BAZ", "QUX")]
    rfl (by decide) (fun c cs h => by cases h; decide)
    (by decide) (fun c cs h => by cases h; decide)
    (fun k hk _ => by rcases hk with rfl | rfl <;> decide)
    (fun k hk _ => by rcases hk with rfl | rfl <;> decide)

/-- Claim C3 counterexample: a common file containing the line
ENVELOPE_ENV=evil makes the compiled mapping bind ENVELOPE_ENV to evil,
not to the requested name dev, because file contents are appended after
the synthetic seed lines and later assignments win. -/
theorem claim3_counterexample :
    getCompiledEnv fsOverride "/p/env" "dev" =
      .ok [("ENVELOPE_ENV", "evil"), ("ENVELOPE_DIR", "/p/env/dev")] ∧
    envLookup "ENVELOPE_ENV"
      [("ENVELOPE_ENV", "evil"), ("ENVELOPE_DIR", "/p/env/dev")] = some "evil" ∧
    "evil" ≠ "dev" :=
  ⟨rfl, rfl, by decide⟩

/-! ## Flat names and reserved names -/

theorem isFlatName_shape {n : String} (h : isFlatName n = true) :
    n = ".env." ++ envSuffix n := by
  unfold isFlatName at h
  split at h
  · rename_i c rest hn
    apply String.ext
    show n.data = ".env.".data ++ n.data.drop 5
    rw [show n.toList = n.data from rfl] at hn
    rw [hn]
    rfl
  · exact Bool.noConfusion h

/-- Claim C10 (amended).  When the directory node_modules exists under
the configuration directory (and the layout is not mixed), get and use
resolve and compile it as an ordinary directory-mode environment, even
though the node_modules directory entry itself never appears in list
output; the name can still be listed when a flat file .env.node_modules
is also present, so the exclusion from list holds provided no such flat
file exists. -/
theorem claim10_node_modules (fs : FileSys) (cfg : String)
    (hdir : isDirectoryMode fs cfg "node_modules" = true)
    (hnm : ¬(hasSubdirs fs cfg = true ∧ hasFlatFiles fs cfg = true)) :
    (getCompiledEnv fs cfg "node_modules" =
        .ok (parseEnvString (mergedEnvText fs cfg "node_modules" true)) ∨
      ∃ n c, getCompiledEnv fs cfg "node_modules" = .error (.invalidFormat n c)) ∧
    ((∀ e ∈ fs.readdir cfg, e.name ≠ ".env.node_modules") →
      ∀ l, list fs cfg = .ok l → "node_modules" ∉ l) := by
  have hassert : assertSingleEnvMode fs cfg = .ok () := by
    unfold assertSingleEnvMode
    have : (hasSubdirs fs cfg && hasFlatFiles fs cfg) = false := by
      cases hs : hasSubdirs fs cfg <;> cases hf : hasFlatFiles fs cfg <;> simp_all
    rw [this]
    rfl
  constructor
  · unfold getCompiledEnv
    rw [hassert, hdir]
    rw [if_neg (by simp)]
    cases hv : validateEnvString (mergedEnvText fs cfg "node_modules" true) with
    | error e =>
      right
      obtain ⟨n, c, rfl⟩ := validate_error_shape hv
      exact ⟨n, c, by simp [hv]⟩
    | ok u => cases u; left; simp [hv]
  · intro hnofile l hl hmem
    unfold list at hl
    rw [hassert] at hl
    simp only [Except.ok.injEq] at hl
    rw [← hl] at hmem
    rcases List.mem_append.mp hmem with hmm | hmm
    · obtain ⟨e, he, hee⟩ := List.mem_map.mp hmm
      have := List.of_mem_filter he
      rw [hee] at this
      simp [bne_iff_ne] at this
    · obtain ⟨e, he, hee⟩ := List.mem_map.mp hmm
      have hf := List.of_mem_filter he
      have hflat : isFlatName e.name = true := by
        cases hx : isFlatName e.name
        · rw [hx] at hf; simp at hf
        · rfl
      have hshape := isFlatName_shape hflat
      rw [hee] at hshape
      exact hnofile e (List.mem_of_mem_filter he) (by
        rw [hshape]
        decide)

/-- Claim C10 counterexample: with a node_modules directory and a flat
file .env.node_modules, list does include the name node_modules (via the
flat file), so list does not always exclude it when the directory
exists. -/
theorem claim10_counterexample :
    fsNodeModulesFlat.fsExists (pathJoin "/p/env" "node_modules") = true ∧
    fsNodeModulesFlat.isDir (pathJoin "/p/env" "node_modules") = true ∧
    list fsNodeModulesFlat "/p/env" = .ok ["node_modules"] :=
  ⟨rfl, rfl, rfl⟩

/-- Claim C10 witness: the project whose only environment is the
directory node_modules resolves and compiles it, and list never shows
it. -/
theorem claim10_witness :
    (getCompiledEnv fsNodeModules "/p/env" "node_modules" =
        .ok (parseEnvString (mergedEnvText fsNodeModules "/p/env" "node_modules" true)) ∨
      ∃ n c, getCompiledEnv fsNodeModules "/p/env" "node_modules" =
        .error (.invalidFormat n c)) ∧
    ((∀ e ∈ fsNodeModules.readdir "/p/env", e.name ≠ ".env.node_modules") →
      ∀ l, list fsNodeModules "/p/env" = .ok l → "node_modules" ∉ l) :=
  claim10_node_modules fsNodeModules "/p/env" rfl (by decide)

/-- Claim C6 (amended).  In an unmixed configuration directory, list
returns the non-reserved subdirectory names in listing order when no
flat marker exists, and the suffixes of the flat-marker files in listing
order when no subdirectory exists; a file is a flat marker exactly when
its name is `.env.` followed by a non-empty suffix whose first character
is not a line terminator, the listed name is exactly that suffix, and the
common file .env itself is never a flat marker. -/
theorem claim6_list_contents (fs : FileSys) (cfg : String)
    (hnm : ¬(hasSubdirs fs cfg = true ∧ hasFlatFiles fs cfg = true)) :
    (hasFlatFiles fs cfg = false →
      list fs cfg = .ok
        (((fs.readdir cfg).filter
          (fun e => e.isDirectory && e.name != "node_modules")).map (fun e => e.name))) ∧
    (hasSubdirs fs cfg = false →
      list fs cfg = .ok
        (((fs.readdir cfg).filter (fun e => e.isFile && isFlatName e.name)).map
          (fun e => envSuffix e.name))) ∧
    (∀ n, isFlatName n = true ↔ ∃ suf, suf ≠ "" ∧
      (∀ c cs, suf.toList = c :: cs → isLineTerm c = false) ∧ n = ".env." ++ suf) ∧
    (∀ suf : String, envSuffix (".env." ++ suf) = suf) ∧
    isFlatName ".env" = false := by
  have hassert : assertSingleEnvMode fs cfg = .ok () := by
    unfold assertSingleEnvMode
    have : (hasSubdirs fs cfg && hasFlatFiles fs cfg) = false := by
      cases hs : hasSubdirs fs cfg <;> cases hf : hasFlatFiles fs cfg <;> simp_all
    rw [this]
    rfl
  refine ⟨?_, ?_, isFlatName_iff, ?_, by decide⟩
  · intro hflat
    unfold list
    rw [hassert]
    have hnilf : (fs.readdir cfg).filter (fun e => e.isFile && isFlatName e.name) = [] := by
      rw [List.filter_eq_nil_iff]
      intro e he
      unfold hasFlatFiles at hflat
      have := List.any_eq_false.mp hflat e he
      simpa using this
    rw [hnilf]
    simp
  · intro hsub
    unfold list
    rw [hassert]
    have hnild : (fs.readdir cfg).filter
        (fun e => e.isDirectory && e.name != "node_modules") = [] := by
      rw [List.filter_eq_nil_iff]
      intro e he
      unfold hasSubdirs at hsub
      have := List.any_eq_false.mp hsub e he
      simpa using this
    rw [hnild]
    simp
  · intro suf
    unfold envSuffix
    rw [toList_append]
    have h5 : ((".env." : String).toList ++ suf.toList).drop 5 = suf.toList := by
      rw [show (5 : Nat) = (".env." : String).toList.length from rfl, List.drop_left]
    rw [h5, mk_toList]

/-- Claim C6 counterexample: a purely flat directory holding the files
`.env.` carriage-return-x and .env.prod is not mixed, yet list returns
only prod: the suffix starting with a carriage return is not treated as
a flat marker by the regex, although its file name is `.env.` followed
by a non-empty suffix. -/
theorem claim6_counterexample :
    hasSubdirs fsFlatCR "/p/env" = false ∧
    (⟨".env.\rx", false, true⟩ : Dirent) ∈ fsFlatCR.readdir "/p/env" ∧
    (".env.\rx" : String) = ".env." ++ "\rx" ∧
    ("\rx" : String) ≠ "" ∧
    list fsFlatCR "/p/env" = .ok ["prod"] ∧
    ("\rx" : String) ∉ ["prod"] :=
  ⟨rfl, by decide, by decide, by decide, rfl, by decide⟩

/-- Claim C6 witness: directory mode lists exactly the subdirectories,
flat mode exactly the suffixes. -/
theorem claim6_witness :
    list fsDirCommon "/p/env" =
      .ok (((fsDirCommon.readdir "/p/env").filter
        (fun e => e.isDirectory && e.name != "node_modules")).map (fun e => e.name)) ∧
    list fsFlat "/p/env" =
      .ok (((fsFlat.readdir "/p/env").filter
        (fun e => e.isFile && isFlatName e.name)).map (fun e => envSuffix e.name)) :=
  ⟨(claim6_list_contents fsDirCommon "/p/env" (by decide)).1 rfl,
   (claim6_list_contents fsFlat "/p/env" (by decide)).2.1 rfl⟩

/-! ## Round-tripping the compiled mapping -/

theorem parseAssign_line {k v : String} (hk : GoodKey k)
    (hv : ∀ c cs, v.toList = c :: cs → isJsWs c = false) :
    parseAssign ((k ++ "=" ++ v).toList) = some (k, v) := by
  have hsplit : (k ++ "=" ++ v).toList = k.toList ++ '=' :: v.toList := by
    rw [toList_append, toList_append]
    rw [show ("=" : String).toList = ['='] from rfl]
    simp
  rw [hsplit, parseAssign_key_append v.toList hk, dropWhile_ws_of_head hv, mk_toList]

theorem mem_setKey {m : List (String × String)} {k v : String}
    {x : String × String} (h : x ∈ setKey m k v) : x = (k, v) ∨ x ∈ m := by
  induction m with
  | nil =>
    simp only [setKey, List.mem_singleton] at h
    exact Or.inl h
  | cons kv rest ih =>
    obtain ⟨k2, v2⟩ := kv
    by_cases hk : k2 = k
    · rw [setKey, if_pos hk] at h
      rcases List.mem_cons.mp h with rfl | h2
      · left
        rw [hk]
      · right
        simp [h2]
    · rw [setKey, if_neg hk] at h
      rcases List.mem_cons.mp h with rfl | h2
      · right; simp
      · rcases ih h2 with h3 | h3
        · exact Or.inl h3
        · right; simp [h3]

theorem mem_keys_setKey {m : List (String × String)} {k v a : String}
    (h : a ∈ (setKey m k v).map Prod.fst) : a ∈ m.map Prod.fst ∨ a = k := by
  obtain ⟨x, hx, hax⟩ := List.mem_map.mp h
  rcases mem_setKey hx with rfl | hxm
  · right
    rw [← hax]
  · left
    exact List.mem_map.mpr ⟨x, hxm, hax⟩

theorem nodup_keys_setKey {m : List (String × String)} (k v : String)
    (h : (m.map Prod.fst).Nodup) : ((setKey m k v).map Prod.fst).Nodup := by
  induction m with
  | nil => simp [setKey]
  | cons kv rest ih =>
    obtain ⟨k2, v2⟩ := kv
    simp only [List.map_cons, List.nodup_cons] at h
    by_cases hk : k2 = k
    · rw [setKey, if_pos hk]
      simp only [List.map_cons, List.nodup_cons]
      exact h
    · rw [setKey, if_neg hk]
      simp only [List.map_cons, List.nodup_cons]
      refine ⟨?_, ih h.2⟩
      intro hmem
      rcases mem_keys_setKey hmem with h2 | h2
      · exact h.1 h2
      · exact hk h2

theorem setKey_append {m : List (String × String)} {k : String} (v : String)
    (h : k ∉ m.map Prod.fst) : setKey m k v = m ++ [(k, v)] := by
  induction m with
  | nil => rfl
  | cons kv rest ih =>
    obtain ⟨k2, v2⟩ := kv
    simp only [List.map_cons, List.mem_cons] at h
    push_neg at h
    rw [setKey, if_neg (fun hx => h.1 hx.symm), List.cons_append]
    rw [ih h.2]

theorem processLines_invariant (ls : List (List Char))
    (m : List (String × String))
    (hls : ∀ l ∈ ls, '\n' ∉ l)
    (hgood : ∀ kv ∈ m, GoodKey kv.1 ∧ GoodVal kv.2)
    (hdup : (m.map Prod.fst).Nodup) :
    (∀ kv ∈ processLines m ls, GoodKey kv.1 ∧ GoodVal kv.2) ∧
    ((processLines m ls).map Prod.fst).Nodup := by
  induction ls generalizing m with
  | nil => exact ⟨hgood, hdup⟩
  | cons l rest ih =>
    rw [processLines]
    cases hp : parseAssign l with
    | none =>
      exact ih m (fun x hx => hls x (List.mem_cons_of_mem _ hx)) hgood hdup
    | some kv =>
      obtain ⟨k, v⟩ := kv
      obtain ⟨hk, hvh, hvm⟩ := parseAssign_shape hp
      have hgoodv : GoodVal v := by
        refine ⟨?_, hvh⟩
        intro hnl
        exact hls l (by simp) (hvm '\n' hnl)
      refine ih (setKey m k v) (fun x hx => hls x (List.mem_cons_of_mem _ hx)) ?_
        (nodup_keys_setKey k v hdup)
      intro kv2 hkv2
      rcases mem_setKey hkv2 with rfl | h2
      · exact ⟨hk, hgoodv⟩
      · exact hgood kv2 h2

theorem parseEnvString_invariant (s : String) :
    (∀ kv ∈ parseEnvString s, GoodKey kv.1 ∧ GoodVal kv.2) ∧
    ((parseEnvString s).map Prod.fst).Nodup := by
  unfold parseEnvString
  exact processLines_invariant _ []
    (fun l hl => no_nl_of_mem_splitNl hl) (by simp) (by simp)

theorem ident_no_nl {c : Char} (h : isIdentChar c = true) : c ≠ '\n' := by
  intro hx
  rw [hx] at h
  exact Bool.noConfusion h

theorem line_no_nl {k v : String} (hk : GoodKey k) (hv : GoodVal v) :
    '\n' ∉ (k ++ "=" ++ v).toList := by
  rw [toList_append, toList_append]
  intro hmem
  rcases List.mem_append.mp hmem with h | h
  · rcases List.mem_append.mp h with h | h
    · obtain ⟨c, cs, hkl, hcs, hall⟩ := hk
      rw [hkl] at h
      rcases List.mem_cons.mp h with hc | hc
      · have : isIdentStart '\n' = true := hc ▸ hcs
        exact Bool.noConfusion this
      · exact ident_no_nl (hall _ hc) rfl
    · rw [show ("=" : String).toList = ['='] from rfl] at h
      simp at h
  · exact hv.1 h

theorem splitNl_joinLines (ls : List String) (hne : ls ≠ [])
    (hnl : ∀ l ∈ ls, '\n' ∉ l.toList) :
    splitNlChars (joinLines ls).toList = ls.map String.toList := by
  induction ls with
  | nil => exact absurd rfl hne
  | cons l rest ih =>
    cases rest with
    | nil =>
      rw [show joinLines [l] = l from rfl]
      rw [splitNl_no_nl (hnl l (by simp))]
      rfl
    | cons l2 rest2 =>
      rw [show joinLines (l :: l2 :: rest2) = l ++ "\n" ++ joinLines (l2 :: rest2)
        from rfl]
      rw [toList_append, toList_append]
      rw [show ("\n" : String).toList = ['\n'] from rfl]
      rw [List.append_assoc]
      rw [show ∀ x : List Char, ['\n'] ++ x = '\n' :: x from fun x => by simp]
      rw [splitNl_append, splitNl_no_nl (hnl l (by simp))]
      rw [ih (by simp) (fun x hx => hnl x (by simp [hx]))]
      rfl

theorem processLines_serialized (m : List (String × String)) :
    ∀ acc : List (String × String),
    (∀ kv ∈ m, GoodKey kv.1 ∧ GoodVal kv.2) →
    (m.map Prod.fst).Nodup →
    (∀ k ∈ m.map Prod.fst, k ∉ acc.map Prod.fst) →
    processLines acc (m.map (fun kv => (kv.1 ++ "=" ++ kv.2).toList)) = acc ++ m := by
  induction m with
  | nil =>
    intro acc _ _ _
    simp [processLines]
  | cons kv rest ih =>
    intro acc hgood hdup hdisj
    obtain ⟨k, v⟩ := kv
    have hgd := hgood (k, v) (by simp)
    have hdup2 : (rest.map Prod.fst).Nodup := by
      simp only [List.map_cons, List.nodup_cons] at hdup
      exact hdup.2
    have hknotin : k ∉ rest.map Prod.fst := by
      simp only [List.map_cons, List.nodup_cons] at hdup
      exact hdup.1
    rw [List.map_cons, processLines, parseAssign_line hgd.1 hgd.2.2]
    show processLines (setKey acc k v)
      (rest.map (fun kv => (kv.1 ++ "=" ++ kv.2).toList)) = acc ++ (k, v) :: rest
    rw [setKey_append v (hdisj k (by simp))]
    have hdisj2 : ∀ k2 ∈ rest.map Prod.fst, k2 ∉ (acc ++ [(k, v)]).map Prod.fst := by
      intro k2 hk2 hk2acc
      rw [List.map_append] at hk2acc
      rcases List.mem_append.mp hk2acc with h | h
      · exact hdisj k2 (by simp [hk2]) h
      · simp only [List.map_cons, List.map_nil, List.mem_singleton] at h
        exact hknotin (h ▸ hk2)
    rw [ih (acc ++ [(k, v)]) (fun x hx => hgood x (by simp [hx])) hdup2 hdisj2]
    simp

/-- Claim C8.  Serializing a successfully compiled mapping as key=value
lines joined by newlines and re-parsing the result through the external
parser yields the same mapping: compiled keys are identifiers, compiled
values are newline-free and carry no leading whitespace, and the keys are
distinct, so each serialized line parses back to exactly its pair. -/
theorem claim8_roundtrip (fs : FileSys) (cfg env : String)
    (m : List (String × String))
    (hm : getCompiledEnv fs cfg env = .ok m) :
    parseEnvString (serializeEnv m) = m := by
  obtain ⟨-, -, -, hmeq⟩ := getCompiledEnv_ok hm
  have hinv : (∀ kv ∈ m, GoodKey kv.1 ∧ GoodVal kv.2) ∧
      (m.map Prod.fst).Nodup := by
    rw [hmeq]
    exact parseEnvString_invariant _
  by_cases hM : m = []
  · rw [hM]
    rfl
  · unfold serializeEnv
    unfold parseEnvString
    rw [splitNl_joinLines (m.map (fun kv => kv.1 ++ "=" ++ kv.2))
      (by simpa using hM)
      (by
        intro l hl
        obtain ⟨kv, hkv, rfl⟩ := List.mem_map.mp hl
        have := hinv.1 kv hkv
        exact line_no_nl this.1 this.2)]
    rw [List.map_map]
    have hcomp : (String.toList ∘ fun kv : String × String => kv.1 ++ "=" ++ kv.2) =
        fun kv : String × String => (kv.1 ++ "=" ++ kv.2).toList := rfl
    rw [hcomp]
    rw [processLines_serialized m [] hinv.1 hinv.2 (by simp)]
    simp

/-- Claim C8 witness: the compiled dev mapping reparses to itself. -/
theorem claim8_witness :
    parseEnvString (serializeEnv [("ENVELOPE_ENV", "dev"),
      ("ENVELOPE_DIR", "/p/env/dev"), ("FOO", "BAR"), ("BAZ", "QUX")]) =
      [("ENVELOPE_ENV", "dev"), ("ENVELOPE_DIR", "/p/env/dev"),
        ("FOO", "BAR"), ("BAZ", "QUX")] :=
  claim8_roundtrip fsDirCommon "/p/env" "dev"
    [("ENVELOPE_ENV", "dev"), ("ENVELOPE_DIR", "/p/env/dev"),
      ("FOO", "BAR"), ("BAZ", "QUX")] rfl

/-! ## The line grammar: the validator regex versus the specification -/

theorem valid_imp_amended (l : List Char)
    (h : validLineChars (trimChars l) = true) : AmendedValidLine l := by
  obtain ⟨w1, w2, hdecomp, hw1, hw2⟩ := trim_decomp l
  cases ht : trimChars l with
  | nil => exact Or.inl (allWs_of_trim_eq_nil ht)
  | cons c rest =>
    rw [ht] at h hdecomp
    by_cases hc : c = '#'
    · subst hc
      have h2 : rest.all (fun x => !isLineTerm x) = true := h
      refine Or.inr (Or.inl ⟨w1, rest, w2, ?_, hw1, ?_, hw2⟩)
      · rw [hdecomp]
      · intro x hx
        simpa using List.all_eq_true.mp h2 x hx
    · simp only [validLineChars] at h
      rw [if_neg hc, Bool.and_eq_true] at h
      obtain ⟨hstart, hmatch⟩ := h
      split at hmatch
      · rename_i tail heq
        have hrest : rest = rest.takeWhile isIdentChar ++
            ((rest.dropWhile isIdentChar).takeWhile isJsWs ++ '=' ::
              (tail.takeWhile isJsWs ++ tail.dropWhile isJsWs)) := by
          conv_lhs =>
            rw [← List.takeWhile_append_dropWhile isIdentChar rest]
          congr 1
          conv_lhs =>
            rw [← List.takeWhile_append_dropWhile isJsWs
              (rest.dropWhile isIdentChar)]
          rw [heq]
          congr 1
          conv_lhs =>
            rw [← List.takeWhile_append_dropWhile isJsWs tail]
        refine Or.inr (Or.inr ⟨w1, c :: rest.takeWhile isIdentChar,
          (rest.dropWhile isIdentChar).takeWhile isJsWs,
          tail.takeWhile isJsWs, tail.dropWhile isJsWs, w2, ?_, hw1,
          ⟨c, rest.takeWhile isIdentChar, rfl, hstart,
            fun x hx => all_takeWhile x hx⟩,
          (fun x hx => all_takeWhile x hx),
          (fun x hx => all_takeWhile x hx),
          (fun x hx => by simpa using List.all_eq_true.mp hmatch x hx),
          hw2⟩)
        rw [hdecomp]
        conv_lhs => rw [hrest]
        simp [List.append_assoc]
      · exact Bool.noConfusion hmatch

theorem dropWhile_ident_ws_eq (w2 tail2 : List Char) (hw2 : AllWsL w2) :
    (w2 ++ '=' :: tail2).dropWhile isIdentChar = w2 ++ '=' :: tail2 := by
  cases w2 with
  | nil => exact dropWhile_cons_neg (by decide)
  | cons a as =>
    exact dropWhile_cons_neg ((ws_not_ident a (hw2 a (by simp))).2)

theorem amended_imp_valid (l : List Char) (h : AmendedValidLine l) :
    validLineChars (trimChars l) = true := by
  rcases h with hws | ⟨w, rest, w2, hl, hw, hrest, hw2⟩ |
    ⟨w1, idn, w2, wa, mid, wz, hl, hw1, hidn, hw2, hwa, hmid, hwz⟩
  · rw [trim_of_allWs hws]
    rfl
  · have htrim : trimChars l = '#' :: rdropWs rest := by
      unfold trimChars
      rw [hl]
      rw [show w ++ '#' :: rest ++ w2 = w ++ ('#' :: rest ++ w2) from by simp]
      rw [dropWhile_append_all hw]
      rw [show ('#' :: rest ++ w2 : List Char) = '#' :: (rest ++ w2) from by simp]
      rw [dropWhile_cons_neg (by decide)]
      rw [rdropWs_cons_not_ws _ (by decide)]
      rw [rdropWs_append_allWs _ hw2]
    rw [htrim]
    have hall : (rdropWs rest).all (fun x => !isLineTerm x) = true := by
      rw [List.all_eq_true]
      intro x hx
      simpa using hrest x (mem_rdropWs hx)
    exact hall
  · obtain ⟨c, cs, hidneq, hstart, hcs⟩ := hidn
    have hcws : isJsWs c = false := identStart_not_ws c hstart
    have hl2 : l = w1 ++ (c :: (cs ++ (w2 ++ '=' :: (wa ++ mid ++ wz)))) := by
      rw [hl, hidneq]
      simp [List.append_assoc]
    have hXdrop : rdropWs (wa ++ mid ++ wz) = rdropWs (wa ++ mid) :=
      rdropWs_append_allWs _ hwz
    have htrim : trimChars l =
        c :: (cs ++ (w2 ++ '=' :: rdropWs (wa ++ mid))) := by
      unfold trimChars
      rw [hl2, dropWhile_append_all hw1, dropWhile_cons_neg hcws]
      rw [rdropWs_cons_not_ws _ hcws]
      have hne : ¬ AllWsL ('=' :: (wa ++ mid ++ wz)) := by
        intro hal
        have := hal '=' (by simp)
        exact absurd this (by decide)
      rw [show cs ++ (w2 ++ '=' :: (wa ++ mid ++ wz)) =
        (cs ++ w2) ++ '=' :: (wa ++ mid ++ wz) from by simp [List.append_assoc]]
      rw [rdropWs_append_not_allWs _ hne]
      rw [rdropWs_cons_not_ws _ (by decide)]
      rw [hXdrop]
      simp [List.append_assoc]
    rw [htrim]
    have hchash : ¬ c = '#' := by
      intro hx
      rw [hx] at hstart
      exact absurd hstart (by decide)
    simp only [validLineChars]
    rw [if_neg hchash, hstart, Bool.true_and]
    have hd1 : (cs ++ (w2 ++ '=' :: rdropWs (wa ++ mid))).dropWhile isIdentChar
        = w2 ++ '=' :: rdropWs (wa ++ mid) := by
      rw [dropWhile_append_all hcs, dropWhile_ident_ws_eq _ _ hw2]
    have hd2 : (w2 ++ '=' :: rdropWs (wa ++ mid)).dropWhile isJsWs
        = '=' :: rdropWs (wa ++ mid) :=
      dropWhile_append_stop _ hw2 (by decide)
    rw [hd1, hd2]
    show ((rdropWs (wa ++ mid)).dropWhile isJsWs).all (fun x => !isLineTerm x) = true
    rw [List.all_eq_true]
    intro x hx
    by_cases hAll : AllWsL (wa ++ mid)
    · rw [rdropWs_of_allWs hAll] at hx
      simp at hx
    · have hmidnall : ¬ AllWsL mid := by
        intro hm
        exact hAll (fun y hy => by
          rcases List.mem_append.mp hy with hy2 | hy2
          · exact hwa y hy2
          · exact hm y hy2)
      rw [rdropWs_append_not_allWs _ hmidnall, dropWhile_append_all hwa] at hx
      have hxmid : x ∈ mid := mem_rdropWs (mem_of_mem_dropWhile hx)
      simpa using hmid x hxmid

theorem validLine_iff_amended (l : List Char) :
    validLineChars (trimChars l) = true ↔ AmendedValidLine l :=
  ⟨valid_imp_amended l, amended_imp_valid l⟩

theorem firstBad_none_iff (ls : List (List Char)) (i : Nat) :
    firstBad i ls = none ↔ ∀ l ∈ ls, validLineChars (trimChars l) = true := by
  induction ls generalizing i with
  | nil => simp [firstBad]
  | cons l rest ih =>
    rw [firstBad]
    by_cases hv : validLineChars (trimChars l) = true
    · simp only [hv, if_true, ih (i + 1)]
      constructor
      · intro hall x hx
        rcases List.mem_cons.mp hx with rfl | hx2
        · exact hv
        · exact hall x hx2
      · intro hall x hx
        exact hall x (by simp [hx])
    · simp only [if_neg hv]
      constructor
      · intro hx
        exact Option.noConfusion hx
      · intro hall
        exact absurd (hall l (by simp)) hv

theorem firstBad_some (ls : List (List Char)) :
    ∀ (i n : Nat) (t : List Char), firstBad i ls = some (n, t) →
    ∃ j l, ls[j]? = some l ∧ n = i + j ∧ t = trimChars l ∧
      validLineChars (trimChars l) = false ∧
      ∀ j2, j2 < j → ∀ l2, ls[j2]? = some l2 →
        validLineChars (trimChars l2) = true := by
  induction ls with
  | nil =>
    intro i n t h
    exact Option.noConfusion h
  | cons l rest ih =>
    intro i n t h
    rw [firstBad] at h
    by_cases hv : validLineChars (trimChars l) = true
    · rw [if_pos hv] at h
      obtain ⟨j, l2, hj, hn, ht, hbad, hpre⟩ := ih (i + 1) n t h
      refine ⟨j + 1, l2, by simpa using hj, by omega, ht, hbad, ?_⟩
      intro j2 hj2 l3 hl3
      cases j2 with
      | zero =>
        simp only [List.getElem?_cons_zero, Option.some.injEq] at hl3
        rw [← hl3]
        exact hv
      | succ j3 =>
        simp only [List.getElem?_cons_succ] at hl3
        exact hpre j3 (by omega) l3 hl3
    · rw [if_neg hv] at h
      simp only [Option.some.injEq, Prod.mk.injEq] at h
      refine ⟨0, l, by simp, by omega, h.2.symm, by simpa using hv, ?_⟩
      intro j2 hj2
      omega

/-- Claim C4 (amended).  Validation of the merged text accepts exactly the
lines that are entirely whitespace, comments whose first non-whitespace
character is a hash followed by terminator-free content, or assignments of
an identifier with optional surrounding whitespace, an equals sign, and
trailing content that is free of line terminators outside its whitespace
runs (the regex wildcard cannot match a carriage return or a Unicode line
separator); any merged text containing a line of any other form fails
with InvalidFormat at the first such 1-based line number with the trimmed
content, and parsing happens only after validation has succeeded. -/
theorem claim4_validation_grammar (s : String) :
    (validateEnvString s = .ok () ↔
      ∀ l ∈ splitNlChars s.toList, AmendedValidLine l) ∧
    (∀ n c, validateEnvString s = .error (.invalidFormat n c) →
      ∃ j l, (splitNlChars s.toList)[j]? = some l ∧ n = j + 1 ∧
        c = String.mk (trimChars l) ∧ ¬ AmendedValidLine l ∧
        ∀ j2, j2 < j → ∀ l2, (splitNlChars s.toList)[j2]? = some l2 →
          AmendedValidLine l2) ∧
    (∀ fs cfg env m, getCompiledEnv fs cfg env = .ok m →
      validateEnvString (mergedEnvText fs cfg env
        (isDirectoryMode fs cfg env)) = .ok ()) := by
  refine ⟨⟨?_, ?_⟩, ?_, ?_⟩
  · intro hok l hl
    cases hfb : firstBad 1 (splitNlChars s.toList) with
    | none =>
      exact (validLine_iff_amended l).mp ((firstBad_none_iff _ _).mp hfb l hl)
    | some p =>
      obtain ⟨i, t⟩ := p
      unfold validateEnvString at hok
      rw [hfb] at hok
      exact Except.noConfusion hok
  · intro hall
    unfold validateEnvString
    rw [(firstBad_none_iff _ _).mpr
      (fun l hl => (validLine_iff_amended l).mpr (hall l hl))]
  · intro n c herr
    unfold validateEnvString at herr
    cases hfb : firstBad 1 (splitNlChars s.toList) with
    | none =>
      rw [hfb] at herr
      exact Except.noConfusion herr
    | some p =>
      obtain ⟨i, t⟩ := p
      rw [hfb] at herr
      injection herr with h2
      injection h2 with hn hc
      obtain ⟨j, l, hj, hij, ht, hbad, hpre⟩ := firstBad_some _ 1 i t hfb
      refine ⟨j, l, hj, by omega, ?_, ?_, ?_⟩
      · rw [← hc, ht]
      · intro ha
        rw [(validLine_iff_amended l).mpr ha] at hbad
        exact Bool.noConfusion hbad
      · intro j2 hj2 l2 hl2
        exact (validLine_iff_amended l2).mp (hpre j2 hj2 l2 hl2)
  · intro fs cfg env m hm
    exact (getCompiledEnv_ok hm).2.2.1

/-- Claim C4 counterexample.  The line FOO=a followed by a carriage
return and b is an assignment in exactly the form the specification
describes (identifier, equals sign, arbitrary trailing content), yet
validation rejects its text with InvalidFormat at line 1: the regex
wildcard cannot match the embedded carriage return. -/
theorem claim4_counterexample :
    SpecValidLine (("FOO=a\rb" : String).toList) ∧
    validateEnvString "FOO=a\rb" = .error (.invalidFormat 1 "FOO=a\rb") := by
  constructor
  · refine Or.inr (Or.inr ⟨[], ("FOO" : String).toList, [],
      ("a\rb" : String).toList, ?_, ?_, ?_, ?_⟩)
    · rfl
    · intro x hx
      simp at hx
    · exact ⟨'F', ['O', 'O'], rfl, by decide, by decide⟩
    · intro x hx
      simp at hx
  · rfl

/-- Claim C4 witness: the two-line text FOO=1 and an indented comment are
accepted, so every one of their lines is of the amended grammar. -/
theorem claim4_witness :
    ∀ l ∈ splitNlChars (("FOO=1\n  # note" : String).toList), AmendedValidLine l :=
  (claim4_validation_grammar "FOO=1\n  # note").1.mp rfl
